import Mathlib

/-!
# Verification of the CITS3200_06 ingestion pipeline (`src/db/create_db.py`)

This development shallowly embeds the data-reconciliation pipeline of the
repository: text normalisation and title-casing of taxonomy phrases, the
member identity resolver (`_ensure_member`), the research-output and award
ingestors, the external-collaborator backfill, and the aggregation pass.

Python strings are modelled as lists of Unicode code points (`PyStr`).
Character classes and the lowercase map cover the ASCII range; the
uppercase map additionally carries the one-to-many Unicode expansions
(`'ß'.upper() = "SS"`, ligature `ﬁ` → `FI`, …) that make the title-caser
non-idempotent, and universally quantified statements about the case maps
are restricted to ASCII phrases, where the model is exact
(`str.casefold` is modelled as ASCII lowercasing).  Machine floats
carrying funding amounts are modelled as rationals.  SQLite tables are modelled as lists of rows; the schema file
`db/create_db.sql` is not part of the sources, so the uniqueness
constraints it declares are modelled from the spec where noted.
-/

/-- A Python string: its list of Unicode code points. -/
abbrev PyStr := List Nat

/-- Code points of a Lean string literal, for writing concrete `PyStr`s. -/
def pyStr (s : String) : PyStr := s.data.map Char.toNat

/-- Whitespace characters of the ASCII range (the `\s` class / `str.split`). -/
def SpaceCh (c : Nat) : Prop := c = 32 ∨ c = 9 ∨ c = 10 ∨ c = 11 ∨ c = 12 ∨ c = 13

instance : DecidablePred SpaceCh := fun c => by unfold SpaceCh; infer_instance

/-- ASCII uppercase letter. -/
def UpperCh (c : Nat) : Prop := 65 ≤ c ∧ c ≤ 90

instance : DecidablePred UpperCh := fun c => by unfold UpperCh; infer_instance

/-- ASCII lowercase letter. -/
def LowerCh (c : Nat) : Prop := 97 ≤ c ∧ c ≤ 122

instance : DecidablePred LowerCh := fun c => by unfold LowerCh; infer_instance

/-- ASCII letter (a "cased" character in the ASCII model). -/
def AlphaCh (c : Nat) : Prop := UpperCh c ∨ LowerCh c

instance : DecidablePred AlphaCh := fun c => by unfold AlphaCh; infer_instance

/-- ASCII digit. -/
def DigitCh (c : Nat) : Prop := 48 ≤ c ∧ c ≤ 57

instance : DecidablePred DigitCh := fun c => by unfold DigitCh; infer_instance

/-- Regex word character `\w` : letter, digit or underscore. -/
def WordCh (c : Nat) : Prop := AlphaCh c ∨ DigitCh c ∨ c = 95

instance : DecidablePred WordCh := fun c => by unfold WordCh; infer_instance

/-- Per-character `str.lower`, modelled on the ASCII range; a non-ASCII
code point passes through (statements quantifying over all strings are
therefore made for ASCII phrases, where this map is exact). -/
def lowerCh (c : Nat) : Nat := if UpperCh c then c + 32 else c

/-- The single-code-point part of `str.upper`: ASCII letters map within
ASCII, anything else passes through.  See `upperChS` for the one-to-many
expansions. -/
def upperCh (c : Nat) : Nat := if LowerCh c then c - 32 else c

/-- Python `str.upper` maps some characters to several: `upperChS c` is
the code-point sequence of `chr(c).upper()`.  Beyond the ASCII range it
models the expanding case maps relevant here — the sharp s
(`'ß'.upper() = "SS"`) and the Latin f-ligatures (`ﬀ ﬁ ﬂ` → `FF FI FL`);
any other code point is left unchanged. -/
def upperChS (c : Nat) : List Nat :=
  if c = 223 then [83, 83]
  else if c = 64256 then [70, 70]
  else if c = 64257 then [70, 73]
  else if c = 64258 then [70, 76]
  else [upperCh c]

/-- ASCII-only string: every code point below 128.  On such strings the
case-map model is exact. -/
def AsciiStr (s : PyStr) : Prop := ∀ c ∈ s, c < 128

instance (s : PyStr) : Decidable (AsciiStr s) := by unfold AsciiStr; infer_instance

/-- `str.lower` on a whole string. -/
def pyLower (s : PyStr) : PyStr := s.map lowerCh

/-- Python `str.isupper()`: at least one cased character and no lowercase one. -/
def StrIsUpper (s : PyStr) : Prop := (∃ c ∈ s, AlphaCh c) ∧ ∀ c ∈ s, ¬ LowerCh c

instance (s : PyStr) : Decidable (StrIsUpper s) := by unfold StrIsUpper; infer_instance

/-- Python `str.isalpha()`: nonempty and all letters. -/
def StrIsAlpha (s : PyStr) : Prop := s ≠ [] ∧ ∀ c ∈ s, AlphaCh c

instance (s : PyStr) : Decidable (StrIsAlpha s) := by unfold StrIsAlpha; infer_instance

/-- Join a list of strings with a single-character separator
(`sep.join(parts)`). -/
def joinSep (sep : Nat) : List PyStr → PyStr
  | [] => []
  | [t] => t
  | t :: ts => t ++ sep :: joinSep sep ts

/-- Accumulator pass of `str.split()` (split on whitespace runs, dropping
empty tokens); `acc` holds the reversed current token. -/
def wsSplitAux : PyStr → PyStr → List PyStr
  | [], acc => if acc.isEmpty then [] else [acc.reverse]
  | c :: cs, acc =>
    if SpaceCh c then
      if acc.isEmpty then wsSplitAux cs [] else acc.reverse :: wsSplitAux cs []
    else wsSplitAux cs (c :: acc)

/-- Python `str.split()` with no arguments. -/
def wsSplit (s : PyStr) : List PyStr := wsSplitAux s []

/-- `_norm`: collapse every whitespace run to one space and trim, i.e.
`re.sub(r"\s+", " ", s).strip()`, which is exactly `" ".join(s.split())`. -/
def pyNorm (s : PyStr) : PyStr := joinSep 32 (wsSplit s)

/-- `str.strip()`: drop leading and trailing whitespace. -/
def pyStrip (s : PyStr) : PyStr :=
  ((s.dropWhile (fun c => decide (SpaceCh c))).reverse.dropWhile
    (fun c => decide (SpaceCh c))).reverse

/-- Python `token.split("-")` (keeps empty segments). -/
def splitHyph : PyStr → List PyStr
  | [] => [[]]
  | c :: cs =>
    if c = 45 then [] :: splitHyph cs
    else
      match splitHyph cs with
      | [] => [[c]]
      | t :: ts => (c :: t) :: ts

/-- The fixed connective word list `_EXPERTISE_SMALL_WORDS` (the source's
set literal repeats "into"; set semantics make the repeat irrelevant). -/
def smallWords : List PyStr :=
  [pyStr "a", pyStr "an", pyStr "the", pyStr "and", pyStr "or", pyStr "nor",
   pyStr "but", pyStr "for", pyStr "so", pyStr "yet",
   pyStr "as", pyStr "at", pyStr "by", pyStr "in", pyStr "of", pyStr "on",
   pyStr "per", pyStr "to", pyStr "via", pyStr "vs", pyStr "v",
   pyStr "de", pyStr "la", pyStr "le", pyStr "du", pyStr "da", pyStr "di",
   pyStr "del", pyStr "von", pyStr "van", pyStr "der", pyStr "den",
   pyStr "with", pyStr "into", pyStr "onto", pyStr "over", pyStr "under",
   pyStr "between", pyStr "among", pyStr "from",
   pyStr "through", pyStr "toward", pyStr "towards", pyStr "without",
   pyStr "within", pyStr "across", pyStr "against",
   pyStr "about", pyStr "around", pyStr "after", pyStr "before",
   pyStr "off", pyStr "up", pyStr "down", pyStr "out"]

/-- `_is_acronym`: all-caps alphabetic of length ≥ 2, or a digit/letter mix.
The source's two sequential `if ... return True` tests are one disjunction. -/
def IsAcronym (t : PyStr) : Prop :=
  t ≠ [] ∧ ((StrIsUpper t ∧ StrIsAlpha t ∧ 2 ≤ t.length) ∨
            ((∃ c ∈ t, DigitCh c) ∧ ∃ c ∈ t, AlphaCh c))

instance (t : PyStr) : Decidable (IsAcronym t) := by unfold IsAcronym; infer_instance

/-- `lower[:1].upper() + lower[1:]`; the first character's uppercase may
be several characters. -/
def capFirst : PyStr → PyStr
  | [] => []
  | c :: cs => upperChS c ++ cs

/-- `_titlecase_word)` (the source binds `lower = token.lower()` once;
it is inlined here). -/
def titlecaseWord (t : PyStr) (isBoundary : Bool) : PyStr :=
  if t = [] then t
  else if IsAcronym t then t
  else if isBoundary = false ∧ pyLower t ∈ smallWords then pyLower t
  else capFirst (pyLower t)

/-- Effective boundary flag for hyphen segment `i` of `n` in
`_titlecase_hyphenated` (`boundary or i == 0 or i == len(parts)-1`). -/
def hyphFlag (n i : Nat) (isFirst isLast : Bool) : Bool :=
  (((i == 0) && isFirst) || ((i == n - 1) && isLast)) || (i == 0) || (i == n - 1)

/-- The segment loop of `_titlecase_hyphenated`. -/
def tcSegs (n : Nat) (isFirst isLast : Bool) : Nat → List PyStr → List PyStr
  | _, [] => []
  | i, seg :: rest =>
    titlecaseWord seg (hyphFlag n i isFirst isLast) :: tcSegs n isFirst isLast (i + 1) rest

/-- `_titlecase_hyphenated` (the source binds `parts = token.split("-")`
once; it is inlined here). -/
def titlecaseHyphenated (t : PyStr) (isFirst isLast : Bool) : PyStr :=
  joinSep 45 (tcSegs (splitHyph t).length isFirst isLast 0 (splitHyph t))

/-- The per-token branch of `titlecase_expertise`'s loop. -/
def procTok (t : PyStr) (isFirst isLast : Bool) : PyStr :=
  if 45 ∈ t ∧ 1 < t.length then titlecaseHyphenated t isFirst isLast
  else titlecaseWord t (isFirst || isLast)

/-- The `enumerate(tokens)` loop of `titlecase_expertise`; `n` is the token
count, `i` the current index. -/
def procToks (n : Nat) : Nat → List PyStr → List PyStr
  | _, [] => []
  | i, t :: rest => procTok t (i == 0) (i == n - 1) :: procToks n (i + 1) rest

/-- `titlecase_expertise` (the bindings `phrase = _norm(phrase)` and
`tokens = phrase.split()` are inlined). -/
def titlecaseExpertise (p : PyStr) : PyStr :=
  if pyNorm p = [] then pyNorm p
  else joinSep 32 (procToks (wsSplit (pyNorm p)).length 0 (wsSplit (pyNorm p)))

/-- `html.unescape`, modelled on the five standard entities that the
corpus's HTML-escaped fields use (`&amp; &lt; &gt; &quot; &#39;`); other
text passes through unchanged. -/
def htmlUnescape : PyStr → PyStr
  | 38 :: 97 :: 109 :: 112 :: 59 :: rest => 38 :: htmlUnescape rest
  | 38 :: 108 :: 116 :: 59 :: rest => 60 :: htmlUnescape rest
  | 38 :: 103 :: 116 :: 59 :: rest => 62 :: htmlUnescape rest
  | 38 :: 113 :: 117 :: 111 :: 116 :: 59 :: rest => 34 :: htmlUnescape rest
  | 38 :: 35 :: 51 :: 57 :: 59 :: rest => 39 :: htmlUnescape rest
  | c :: rest => c :: htmlUnescape rest
  | [] => []

/-- Drop through the first `>`; `none` if there is none. -/
def dropToGt : PyStr → Option PyStr
  | [] => none
  | c :: cs => if c = 62 then some cs else dropToGt cs

/-- Fuelled scan of `re.sub(r'<[^>]*>', '', s)`: a `<` with a later `>` is
removed together with everything up to that `>`; a `<` with no closing `>`
is kept.  (`re.sub(r"<.*?>", "", s)`, used on titles, differs only on
newlines inside a tag, which the corpus's titles do not contain.) -/
def stripTagsF : Nat → PyStr → PyStr
  | 0, s => s
  | _ + 1, [] => []
  | n + 1, c :: cs =>
    if c = 60 then
      match dropToGt cs with
      | some rest => stripTagsF n rest
      | none => c :: stripTagsF n cs
    else c :: stripTagsF n cs

/-- HTML-tag stripping (`re.sub(r'<[^>]*>', '', s)`). -/
def stripTags (s : PyStr) : PyStr := stripTagsF s.length s

/-- `re.sub(r'^[><\s]*', '', field)`: drop leading `>`/`<`/whitespace. -/
def dropLeadingJunk (s : PyStr) : PyStr :=
  s.dropWhile (fun c => decide (c = 62 ∨ c = 60 ∨ SpaceCh c))

/-- `re.sub(r'[><\s]*$', '', field)`: drop trailing `>`/`<`/whitespace. -/
def dropTrailingJunk (s : PyStr) : PyStr :=
  (s.reverse.dropWhile (fun c => decide (c = 62 ∨ c = 60 ∨ SpaceCh c))).reverse

/-- `re.sub(r'^\d+\.\s*', '', field)`: drop a leading `1.`-style list
marker (digits, a dot, following whitespace) if present. -/
def dropNumDot (s : PyStr) : PyStr :=
  let ds := s.takeWhile (fun c => decide (DigitCh c))
  let rest := s.dropWhile (fun c => decide (DigitCh c))
  if ds = [] then s
  else
    match rest with
    | 46 :: r => r.dropWhile (fun c => decide (SpaceCh c))
    | _ => s

/-- `field.lower().startswith(('http', 'www.'))`. -/
def UrlPrefix (l : PyStr) : Prop := pyStr "http" <+: l ∨ pyStr "www." <+: l

instance (l : PyStr) : Decidable (UrlPrefix l) := by unfold UrlPrefix; infer_instance

/-- `clean_expertise`: cleanup and discard rule for taxonomy phrases.
Returns `none` when the cleaned phrase is a URL, shorter than 3 characters
(which covers empty), or matches `^[\W\s]*$` (no word characters). -/
def cleanExpertise (raw : PyStr) : Option PyStr :=
  let r1 := htmlUnescape raw
  let r2 := stripTags r1
  let f1 := pyNorm r2
  let f2 := pyStrip (dropLeadingJunk f1)
  let f3 := pyStrip (dropNumDot f2)
  let f4 := pyStrip (dropTrailingJunk f3)
  if UrlPrefix (pyLower f4) ∨ f4.length < 3 ∨ ∀ c ∈ f4, ¬ WordCh c then none
  else some f4

/-! ## Keyword-group shapes of the research-output and person JSON -/

/-- One entry of a container's `freeKeywords` list: a dict holding a
`freeKeywords` list of raw strings. -/
structure FreeKwItem where
  freeKeywords : List PyStr
deriving DecidableEq, Repr

/-- A `keywordContainers` entry.  `structuredTexts` are the values of
`structuredKeyword.term.text[].value`; `[]` models a missing or empty
`structuredKeyword` (both falsy in the source). -/
structure KwContainer where
  freeKeywords : List FreeKwItem
  structuredTexts : List PyStr
deriving DecidableEq, Repr

/-- A `keywordGroups` entry.  `typeName` is the group label the source
extracts from `type.term.text[0].value` / `logicalName`; that unwrapping is
label bookkeeping and is taken as already extracted. -/
structure KwGroup where
  typeName : PyStr
  containers : List KwContainer
deriving DecidableEq, Repr

/-- The container branch of the tag loop in
`fill_db_from_json_research_outputs`: free keywords win and skip the
structured branch (`continue`); every kept raw keyword is `_norm`-alised,
kept only if nonempty, and title-cased.  No `clean_expertise` call. -/
def tagsOfContainer (k : KwContainer) : List PyStr :=
  if k.freeKeywords ≠ [] then
    ((k.freeKeywords.map FreeKwItem.freeKeywords).flatten).filterMap fun raw =>
      if pyNorm raw = [] then none else some (titlecaseExpertise (pyNorm raw))
  else
    k.structuredTexts.filterMap fun raw =>
      if pyNorm raw = [] then none else some (titlecaseExpertise (pyNorm raw))

/-- All `(ro_uuid, type_name, name)` tag rows the source collects for one
research output before its `INSERT OR IGNORE` loop. -/
def extractTags (ro : String) (groups : List KwGroup) : List (String × PyStr × PyStr) :=
  (groups.map fun g =>
    (g.containers.map tagsOfContainer).flatten.map fun p => (ro, g.typeName, p)).flatten

/-! ## Person expertise extraction (`fill_db_from_json_persons`) -/

/-- The per-phrase loop of the persons ingest: each candidate phrase runs
through `clean_expertise`; survivors are title-cased and deduplicated
case-insensitively (`seen` holds casefolded keys, first occurrence wins).
Returns the updated `seen` set and the accumulated inserted phrases. -/
def addPhrases : List PyStr → List PyStr → List PyStr → List PyStr × List PyStr
  | seen, acc, [] => (seen, acc)
  | seen, acc, p :: ps =>
    match cleanExpertise p with
    | none => addPhrases seen acc ps
    | some c =>
      if pyLower (titlecaseExpertise c) ∈ seen then addPhrases seen acc ps
      else addPhrases (pyLower (titlecaseExpertise c) :: seen)
        (acc ++ [titlecaseExpertise c]) ps

/-- The ExpertiseTerm phrases stored for one person: `parts` are the
pieces of the research-interests text after the source's
`re.split(r"[;,/]|\band\b", ...)` (the splitting itself carries no
discard decision), `structuredRaws` the raw structured-keyword values. -/
def personExpertise (parts structuredRaws : List PyStr) : List PyStr :=
  let s1 := addPhrases [] [] parts
  (addPhrases s1.1 s1.2 structuredRaws).2

/-! ## The OIMembers table and `_ensure_member` -/

/-- A row of `OIMembers`. -/
structure MemberRow where
  uuid : String
  name : String
  email : Option String := none
  education : Option String := none
  bio : Option String := none
  phone : Option String := none
  photo_url : Option String := none
  profile_url : Option String := none
  position : Option String := none
  first_title : Option String := none
  main_research_area : Option String := none
deriving DecidableEq, Repr

/-- ASCII `str.casefold` (coincides with lowercasing on ASCII). -/
def casefold (s : String) : String := String.mk (s.data.map Char.toLower)

/-- `_deterministic_member_uuid`: `uuid.uuid5(NAMESPACE_URL, "member:" +
name.casefold())`.  The SHA-1 digest inside `uuid5` is modelled by a
deterministic injective tagging of its input, which is all the pipeline
relies on (same name – same id across calls and runs). -/
def detMemberUuid (name : String) : String := "uuid5:member:" ++ casefold name

/-- Modelled from the spec: `db/create_db.sql` (not under `src/`) declares
`OIMembers` with primary key `uuid` and a unique `name` (§3 "id is the
durable identity", §4.1's name-conflict branch).  An `INSERT` that collides
on either raises `IntegrityError`, modelled as `none`. -/
def insertMemberRow (t : List MemberRow) (r : MemberRow) : Option (List MemberRow) :=
  if t.any (fun m => decide (m.uuid = r.uuid ∨ m.name = r.name)) then none
  else some (t ++ [r])

/-- Errors that can escape `_ensure_member`: a database uniqueness
violation (`sqlite3.IntegrityError`) or a parameter-binding mismatch
(`sqlite3.ProgrammingError`). -/
inductive PyErr where
  | integrityError
  | programmingError
deriving DecidableEq, Repr

/-- `_ensure_member`.  Faithful to the source, including its two defects:

* name-conflict branch: after the `UPDATE OIMembers SET uuid = ? WHERE
  name = ?` re-key, the field-merge `UPDATE` supplies 6 parameters to a
  statement with 7 placeholders, so `sqlite3` raises `ProgrammingError`
  unconditionally;
* uuid-conflict branch: the parameter tuple ends `(..., member_uuid,
  profile_url)` while the placeholders expect `(..., profile_url,
  member_uuid)`, so the statement runs as `SET ..., profile_url =
  COALESCE(member_uuid, profile_url) WHERE uuid = profile_url` — with a
  `NULL` `profile_url` it matches nothing, and it can only ever match a
  row whose uuid equals the incoming `profile_url` value.

`ensureMember` returns `(returned uuid, table)` on a normal return.  The
id it asserts is the supplied canonical id when that is truthy, else the
deterministic name-derived id: -/
def assertedMemberId (name : String) (memberUuid : Option String) : String :=
  match memberUuid with
  | none => detMemberUuid name
  | some s => if s = "" then detMemberUuid name else s

/-- `_ensure_member`, continued from `assertedMemberId` (`if not
member_uuid: member_uuid = _deterministic_member_uuid(name)`; a `None` or
empty canonical id is falsy and replaced by the derived one). -/
def ensureMember (t : List MemberRow) (name : String) (memberUuid : Option String)
    (email education bio phone photo_url profile_url title position
      main_research_area : Option String) :
    Except PyErr (String × List MemberRow) :=
  match insertMemberRow t
      { uuid := assertedMemberId name memberUuid, name := name, email := email,
        education := education, bio := bio, phone := phone,
        photo_url := photo_url, profile_url := profile_url,
        position := position, first_title := title,
        main_research_area := main_research_area } with
  | some t' => .ok (assertedMemberId name memberUuid, t')
  | none =>
    match t.find? (fun m => decide (m.name = name)) with
    | some row =>
      -- `UPDATE OIMembers SET uuid = ? WHERE name = ?` (only if ids differ);
      -- re-keying onto a uuid held by a different row violates the PK.
      if row.uuid ≠ assertedMemberId name memberUuid ∧
         t.any (fun m => decide (m.name ≠ name ∧
           m.uuid = assertedMemberId name memberUuid)) then
        .error .integrityError
      else
        -- The follow-up field-merge UPDATE binds 6 parameters to 7
        -- placeholders: `sqlite3.ProgrammingError`, never caught.
        .error .programmingError
    | none =>
      match t.find? (fun m => decide (m.uuid = assertedMemberId name memberUuid)) with
      | some _ =>
        -- Buggy UPDATE: `WHERE uuid = profile_url`, and the row's
        -- `profile_url` column receives `member_uuid`.
        match profile_url with
        | none => .ok (assertedMemberId name memberUuid, t)  -- WHERE uuid = NULL
        | some pu =>
          if t.any (fun m => decide (m.uuid = pu)) ∧
             t.any (fun m => decide (m.uuid ≠ pu ∧ m.name = name)) then
            .error .integrityError  -- renaming would duplicate `name`
          else
            .ok (assertedMemberId name memberUuid, t.map fun m =>
              if m.uuid = pu then
                { m with name := name,
                         email := email.orElse fun _ => m.email,
                         education := education.orElse fun _ => m.education,
                         bio := bio.orElse fun _ => m.bio,
                         phone := phone.orElse fun _ => m.phone,
                         photo_url := photo_url.orElse fun _ => m.photo_url,
                         profile_url := some (assertedMemberId name memberUuid) }
              else m)
      | none => .error .integrityError  -- re-raise

/-! ## Research outputs: org filter, upsert, collaborators -/

/-- A row of `OIResearchOutputs` (the columns the ingest writes). -/
structure RORow where
  uuid : String
  publisher_name : Option String := none
  name : Option String := none
  abstract : Option String := none
  num_citations : Option Int := none
  num_authors : Option Int := none
  publication_year : Option Int := none
  link_to_paper : Option String := none
  journal_name : Option String := none
deriving DecidableEq, Repr

/-- The `ON CONFLICT(uuid) DO UPDATE` clause of the research-output
upsert: per field, `COALESCE(excluded.field, existing.field)`. -/
def mergeRORow (old new : RORow) : RORow :=
  { uuid := old.uuid,
    publisher_name := new.publisher_name.orElse fun _ => old.publisher_name,
    name := new.name.orElse fun _ => old.name,
    abstract := new.abstract.orElse fun _ => old.abstract,
    num_citations := new.num_citations.orElse fun _ => old.num_citations,
    num_authors := new.num_authors.orElse fun _ => old.num_authors,
    publication_year := new.publication_year.orElse fun _ => old.publication_year,
    link_to_paper := new.link_to_paper.orElse fun _ => old.link_to_paper,
    journal_name := new.journal_name.orElse fun _ => old.journal_name }

/-- `INSERT ... ON CONFLICT(uuid) DO UPDATE` into `OIResearchOutputs`. -/
def upsertRORow (t : List RORow) (r : RORow) : List RORow :=
  if t.any (fun e => decide (e.uuid = r.uuid)) then
    t.map fun e => if e.uuid = r.uuid then mergeRORow e r else e
  else t ++ [r]

/-- An `organisationalUnits` entry (its optional `uuid`). -/
structure OrgRef where
  uuid : Option String := none
deriving DecidableEq, Repr

/-- A `personAssociations` entry: the person/externalPerson uuid the source
reads (`person.uuid or externalPerson.uuid`) and the role label from
`personRole.term.text[0].value`. -/
structure PersonAssoc where
  personUuid : Option String := none
  role : Option String := none
deriving DecidableEq, Repr

/-- A row of `OIResearchOutputsCollaborators`. -/
structure CollabRow where
  ro : String
  researcher : String
  role : String
deriving DecidableEq, Repr

/-- A research-output JSON record, with the claim-relevant fields.  Nested
scalar fields whose unwrapping carries no decision (abstract, citation and
author counts, publication year, journal, publisher, portal link) appear
already extracted. -/
structure ROItem where
  uuid : Option String := none
  titleValue : PyStr := []           -- `(item.title or {}).value or ""`
  orgUnits : List OrgRef := []
  managingOrgUuid : Option String := none
  publisher : Option String := none
  abstract : Option String := none
  numCitations : Option Int := none
  numAuthors : Option Int := none
  publicationYear : Option Int := none
  journalName : Option String := none
  linkToPaper : Option String := none
  kwGroups : List KwGroup := []
  persons : List PersonAssoc := []
deriving Repr

/-- The target organisation uuid hard-coded in the pipeline. -/
def targetOrgUuid : String := "b3a31a78-ac4b-46f0-91e0-89423a64aea6"

/-- `filter_by_organization` of `create_db.py`: scan `organisationalUnits`
for the uuid, then fall back to `managingOrganisationalUnit`. -/
def filterByOrganization (item : ROItem) (orgUuid : String) : Bool :=
  item.orgUnits.any (fun o => decide (o.uuid = some orgUuid)) ||
  decide (item.managingOrgUuid = some orgUuid)

/-- `_title_from_item`: strip markup from the title value and trim. -/
def titleFromItem (item : ROItem) : PyStr :=
  pyStrip (stripTags (htmlUnescape item.titleValue))

/-- State threaded through the research-output ingest. -/
structure ROState where
  outputs : List RORow := []
  tags : List (String × PyStr × PyStr) := []
  collabs : List CollabRow := []
  skipped : Nat := 0
  updated : Nat := 0
deriving Repr

/-- `INSERT OR IGNORE` of a tag / collaborator row: insert-if-absent. -/
def insertIgnore {α : Type} [DecidableEq α] (t : List α) (r : α) : List α :=
  if r ∈ t then t else t ++ [r]

/-- One iteration of the `fill_db_from_json_research_outputs` loop: the
organisational filter, the uuid/title gate, the upsert, the tag inserts and
the collaborator inserts.  (The success path of the upsert is taken: the
fallback `except IntegrityError` update-by-name is dead under a
uuid-keyed table and is not modelled.) -/
def processOutputItem (st : ROState) (item : ROItem) : ROState :=
  if filterByOrganization item targetOrgUuid = false then
    { st with skipped := st.skipped + 1 }
  else
    let title := titleFromItem item
    match item.uuid with
    | none => { st with skipped := st.skipped + 1 }
    | some ro =>
      if ro = "" ∨ title = [] then { st with skipped := st.skipped + 1 }
      else
        let row : RORow :=
          { uuid := ro, publisher_name := item.publisher,
            name := some (String.mk (title.map Char.ofNat)),
            abstract := item.abstract, num_citations := item.numCitations,
            num_authors := item.numAuthors,
            publication_year := item.publicationYear,
            link_to_paper := item.linkToPaper,
            journal_name := item.journalName }
        let outputs := upsertRORow st.outputs row
        let tags := (extractTags ro item.kwGroups).foldl insertIgnore st.tags
        let collabs := item.persons.foldl
          (fun acc a =>
            match a.personUuid, a.role with
            | some pu, some rl => insertIgnore acc ⟨ro, pu, rl⟩
            | _, _ => acc)
          st.collabs
        { outputs := outputs, tags := tags, collabs := collabs,
          skipped := st.skipped, updated := st.updated + 1 }

/-! ## Awards / grants (`fill_db_from_json_awards`) -/

/-- A `fundings[]` entry.  `funderName` is the value the loop reads from
`funder.name.text` (list-or-dict unwrapping elided); `awardedAmount` is the
raw amount, `none` when absent (the source defaults it to `"0.00"`).
Float amounts are modelled as rationals. -/
structure FundingItem where
  funderName : Option String := none
  awardedAmount : Option ℚ := none
deriving DecidableEq, Repr

/-- The funder-extraction loop.  Faithful to the source defect: the name
comes from the current `funder_item`, but the amount is read from
`fund_obj[0]` — the *first* funding entry — on every iteration
(`float(fund_obj[0].get("awardedAmount", "0.00"))`). -/
def extractFunders : List FundingItem → List (Option String × ℚ)
  | [] => []
  | first :: rest =>
    (first :: rest).map fun it => (it.funderName, first.awardedAmount.getD 0)

/-- `sorted(funders, key=lambda x: x[1], reverse=True)[0] if funders else
(None, 0.00)`: the head of a stable descending sort is the first pair with
the maximal amount, i.e. a left fold keeping the incumbent on ties. -/
def topFunder (fs : List (Option String × ℚ)) : Option String × ℚ :=
  match fs with
  | [] => (none, 0)
  | f :: rest => rest.foldl (fun best x => if best.2 < x.2 then x else best) f

/-- A row of `OIResearchGrants`. -/
structure GrantRow where
  uuid : String
  grant_name : Option String := none
  start_date : Option String := none
  end_date : Option String := none
  total_funding : Option ℚ := none
  top_funding_source_name : Option String := none
  school : Option String := none
deriving DecidableEq, Repr

/-- The `ON CONFLICT(uuid) DO UPDATE` clause of the grant upsert. -/
def mergeGrantRow (old new : GrantRow) : GrantRow :=
  { uuid := old.uuid,
    grant_name := new.grant_name.orElse fun _ => old.grant_name,
    start_date := new.start_date.orElse fun _ => old.start_date,
    end_date := new.end_date.orElse fun _ => old.end_date,
    total_funding := new.total_funding.orElse fun _ => old.total_funding,
    top_funding_source_name :=
      new.top_funding_source_name.orElse fun _ => old.top_funding_source_name,
    school := new.school.orElse fun _ => old.school }

/-- `INSERT ... ON CONFLICT(uuid) DO UPDATE` into `OIResearchGrants`. -/
def upsertGrantRow (t : List GrantRow) (r : GrantRow) : List GrantRow :=
  if t.any (fun e => decide (e.uuid = r.uuid)) then
    t.map fun e => if e.uuid = r.uuid then mergeGrantRow e r else e
  else t ++ [r]

/-- A row of `OIResearchGrantsFundingSources`. -/
structure FundingSourceRow where
  grant_uuid : String
  funding_source_name : Option String
  amount : ℚ
deriving DecidableEq, Repr

/-- An award JSON record; `title` and `school` are the values the source
unwraps from `title.text` / `managingOrganisationalUnit.name.text`
(list-or-dict handling elided), `none` also covering an extraction error. -/
structure AwardItem where
  uuid : Option String := none
  title : Option String := none
  school : Option String := none
  fundings : List FundingItem := []
  startDate : Option String := none
  endDate : Option String := none
deriving Repr

/-- State threaded through the award ingest. -/
structure AwardState where
  grants : List GrantRow := []
  fundingSources : List FundingSourceRow := []
  skipped : Nat := 0
deriving Repr

/-- One iteration of the `fill_db_from_json_awards` loop: gates on uuid,
title and school, funder extraction and top-funder selection, the grant
upsert, and one `INSERT OR IGNORE` funding-source row per extracted
funder.  (No organisational filter is applied in this function, its
docstring notwithstanding.) -/
def processAwardItem (st : AwardState) (item : AwardItem) : AwardState :=
  match item.uuid, item.title with
  | some au, some ti =>
    if au = "" ∨ ti = "" then { st with skipped := st.skipped + 1 }
    else
      match item.school with
      | none => { st with skipped := st.skipped + 1 }
      | some sc =>
        if sc = "" then { st with skipped := st.skipped + 1 }
        else
          let funders := extractFunders item.fundings
          let top := topFunder funders
          let grants := upsertGrantRow st.grants
            { uuid := au, grant_name := some ti, start_date := item.startDate,
              end_date := item.endDate, total_funding := some top.2,
              top_funding_source_name := top.1, school := some sc }
          let fss := funders.foldl
            (fun acc f => insertIgnore acc ⟨au, f.1, f.2⟩) st.fundingSources
          { grants := grants, fundingSources := fss, skipped := st.skipped }
  | _, _ => { st with skipped := st.skipped + 1 }

/-! ## Output–grant links and the aggregation pass -/

/-- A row of `OIResearchOutputsToGrants`. -/
structure LinkRow where
  ro : String
  grant : String
deriving DecidableEq, Repr

/-- `author_ro` CTE: `SELECT DISTINCT researcher_uuid, ro_uuid`. -/
def authorRo (cs : List CollabRow) : List (String × String) :=
  (cs.map fun c => (c.researcher, c.ro)).dedup

/-- `ro_by_member` for one member: `COUNT(DISTINCT ro_uuid)`. -/
def numROs (cs : List CollabRow) (p : String) : Nat :=
  (((authorRo cs).filter (fun a => decide (a.1 = p))).map Prod.snd).dedup.length

/-- `grants_by_member` for one member: `COUNT(DISTINCT g.uuid)` over
`author_ro JOIN OIResearchOutputsToGrants JOIN OIResearchGrants` — note the
join against the grants table. -/
def numGrants (cs : List CollabRow) (links : List LinkRow)
    (grantUuids : List String) (p : String) : Nat :=
  ((((authorRo cs).filter (fun a => decide (a.1 = p))).map (fun a =>
      (links.filter (fun l => decide (l.ro = a.2))).map LinkRow.grant)).flatten.filter
    (fun g => decide (g ∈ grantUuids))).dedup.length

/-- `collabs_by_member` for one member: distinct outputs of `p` on which
some other researcher also appears. -/
def numCollabs (cs : List CollabRow) (p : String) : Nat :=
  (((authorRo cs).filter fun a =>
      decide (a.1 = p) &&
      cs.any (fun x => decide (x.ro = a.2 ∧ x.researcher ≠ p))).map Prod.snd).dedup.length

/-- A row of `OIMembersMetaInfo`. -/
structure StatsRow where
  researcher : String
  num_research_outputs : Nat
  num_grants : Nat
  num_collaborations : Nat
deriving DecidableEq, Repr

/-- `fill_db_meta_info_from_other_tables`: one stats row per `OIMembers`
row, recomputed from the collaborator, link and grant tables
(`LEFT JOIN` + `COALESCE(..., 0)`). -/
def fillMeta (ms : List MemberRow) (cs : List CollabRow) (links : List LinkRow)
    (gs : List GrantRow) : List StatsRow :=
  ms.map fun m =>
    { researcher := m.uuid,
      num_research_outputs := numROs cs m.uuid,
      num_grants := numGrants cs links (gs.map GrantRow.uuid) m.uuid,
      num_collaborations := numCollabs cs m.uuid }

/-! ## External-collaborator backfill and rename passes -/

/-- `SELECT DISTINCT c.researcher_uuid ... LEFT JOIN ... WHERE m.uuid IS
NULL`: collaborator uuids with no member row, first occurrence first. -/
def missingUuids (ms : List MemberRow) (cs : List CollabRow) : List String :=
  ((cs.map CollabRow.researcher).dedup).filter
    (fun u => !ms.any (fun m => decide (m.uuid = u)))

/-- `f"External Researcher {uuid[:8]}"`. -/
def placeholderName (u : String) : String :=
  "External Researcher " ++ String.mk (u.data.take 8)

/-- The placeholder member inserted by `add_external_researchers`. -/
def placeholderRow (u : String) : MemberRow :=
  { uuid := u, name := placeholderName u, position := some "External Collaborator" }

/-- `add_external_researchers`: insert a placeholder per missing uuid,
skipping on `IntegrityError` (uuid or name already taken — modelled from
the spec's unique-name/uuid schema, as for `insertMemberRow`). -/
def addExternalResearchers (ms : List MemberRow) (cs : List CollabRow) :
    List MemberRow :=
  (missingUuids ms cs).foldl
    (fun acc u =>
      if acc.any (fun m => decide (m.uuid = u ∨ m.name = placeholderName u)) then acc
      else acc ++ [placeholderRow u])
    ms

/-- The `WHERE position = 'External Collaborator' AND name LIKE 'External
Researcher %'` selection of `update_external_names`. -/
def isPlaceholder (m : MemberRow) : Bool :=
  decide (m.position = some "External Collaborator") &&
  "External Researcher ".data.isPrefixOf m.name.data

/-- One iteration of the `update_external_names` loop body for placeholder
uuid `u`: look `u` up in the author-name mapping; skip when the name is
absent or already taken by a different row (the `SELECT ... WHERE name = ?
AND uuid != ?` guard), else `UPDATE ... SET name = ? WHERE uuid = ?`. -/
def renameStep (mapping : List (String × String)) (acc : List MemberRow)
    (u : String) : List MemberRow :=
  match mapping.lookup u with
  | none => acc
  | some n =>
    if acc.any (fun m => decide (m.name = n ∧ m.uuid ≠ u)) then acc
    else acc.map fun m => if m.uuid = u then { m with name := n } else m

/-- `update_external_names`: for each placeholder row (selected up front by
the cursor), look its uuid up in the author-name mapping harvested from the
research-outputs JSON (modelled as an association list, as the Python
dict's final contents) and apply `renameStep`. -/
def updateExternalNames (ms : List MemberRow) (mapping : List (String × String)) :
    List MemberRow :=
  ((ms.filter isPlaceholder).map MemberRow.uuid).foldl (renameStep mapping) ms

/-! ## Character-level lemmas -/

theorem lowerCh_lowerCh (c : Nat) : lowerCh (lowerCh c) = lowerCh c := by
  unfold lowerCh UpperCh; split_ifs <;> omega

theorem lowerCh_upperCh_lowerCh (c : Nat) :
    lowerCh (upperCh (lowerCh c)) = lowerCh c := by
  unfold lowerCh upperCh UpperCh LowerCh; split_ifs <;> omega

theorem spaceCh_lowerCh (c : Nat) : SpaceCh (lowerCh c) ↔ SpaceCh c := by
  unfold lowerCh SpaceCh UpperCh; split_ifs <;> omega

theorem spaceCh_upperCh (c : Nat) : SpaceCh (upperCh c) ↔ SpaceCh c := by
  unfold upperCh SpaceCh LowerCh; split_ifs <;> omega

theorem alphaCh_lowerCh (c : Nat) : AlphaCh (lowerCh c) ↔ AlphaCh c := by
  unfold lowerCh AlphaCh UpperCh LowerCh; split_ifs <;> omega

theorem alphaCh_upperCh (c : Nat) : AlphaCh (upperCh c) ↔ AlphaCh c := by
  unfold upperCh AlphaCh UpperCh LowerCh; split_ifs <;> omega

theorem digitCh_lowerCh (c : Nat) : DigitCh (lowerCh c) ↔ DigitCh c := by
  unfold lowerCh DigitCh UpperCh; split_ifs <;> omega

theorem digitCh_upperCh (c : Nat) : DigitCh (upperCh c) ↔ DigitCh c := by
  unfold upperCh DigitCh LowerCh; split_ifs <;> omega

theorem lowerCh_eq_45 (c : Nat) : lowerCh c = 45 ↔ c = 45 := by
  unfold lowerCh UpperCh; split_ifs <;> omega

theorem upperCh_eq_45 (c : Nat) : upperCh c = 45 ↔ c = 45 := by
  unfold upperCh LowerCh; split_ifs <;> omega

theorem lowerCh_isLower (c : Nat) : LowerCh (lowerCh c) ↔ AlphaCh c := by
  unfold lowerCh AlphaCh UpperCh LowerCh; split_ifs <;> omega

/-! ## String-level case lemmas -/

theorem pyLower_pyLower (s : PyStr) : pyLower (pyLower s) = pyLower s := by
  simp only [pyLower, List.map_map]
  exact List.map_congr_left fun c _ => lowerCh_lowerCh c

theorem lowerCh_lt_128 (c : Nat) (h : c < 128) : lowerCh c < 128 := by
  unfold lowerCh UpperCh; split_ifs <;> omega

theorem ascii_pyLower (s : PyStr) (h : AsciiStr s) : AsciiStr (pyLower s) := by
  intro c hc
  rcases List.mem_map.mp hc with ⟨d, hd, rfl⟩
  exact lowerCh_lt_128 d (h d hd)

theorem upperChS_ascii (c : Nat) (h : c < 128) : upperChS c = [upperCh c] := by
  unfold upperChS; split_ifs <;> first | rfl | omega

theorem upperChS_ne_nil (c : Nat) : upperChS c ≠ [] := by
  unfold upperChS; split_ifs <;> simp

theorem capFirst_cons_ascii (c : Nat) (cs : PyStr) (h : c < 128) :
    capFirst (c :: cs) = upperCh c :: cs := by
  show upperChS c ++ cs = upperCh c :: cs
  rw [upperChS_ascii c h]
  rfl

theorem capFirst_length_ascii (s : PyStr) (h : AsciiStr s) :
    (capFirst s).length = s.length := by
  cases s with
  | nil => rfl
  | cons c cs =>
    rw [capFirst_cons_ascii c cs (h c (List.mem_cons_self ..))]
    rfl

theorem pyLower_capFirst_pyLower (s : PyStr) (ha : AsciiStr s) :
    pyLower (capFirst (pyLower s)) = pyLower s := by
  cases s with
  | nil => rfl
  | cons c cs =>
    rw [show pyLower (c :: cs) = lowerCh c :: pyLower cs from rfl,
      capFirst_cons_ascii _ _ (lowerCh_lt_128 c (ha c (List.mem_cons_self ..)))]
    simp only [pyLower, List.map_cons, List.map_map]
    refine congrArg₂ _ (lowerCh_upperCh_lowerCh c) ?_
    exact List.map_congr_left fun x _ => lowerCh_lowerCh x

theorem lowerCh_45 : lowerCh 45 = 45 := by decide

theorem mem45_pyLower (t : PyStr) : 45 ∈ pyLower t ↔ 45 ∈ t := by
  simp only [pyLower, List.mem_map]
  constructor
  · rintro ⟨c, hc, h⟩; rwa [(lowerCh_eq_45 c).mp h] at hc
  · intro h; exact ⟨45, h, lowerCh_45⟩

theorem mem45_upperChS (c : Nat) : 45 ∈ upperChS c ↔ c = 45 := by
  unfold upperChS
  split_ifs with h1 h2 h3 h4
  · subst h1; decide
  · subst h2; decide
  · subst h3; decide
  · subst h4; decide
  · rw [List.mem_singleton, eq_comm, upperCh_eq_45]

theorem not_space_mem_upperChS (c d : Nat) (hc : ¬ SpaceCh c) (hd : d ∈ upperChS c) :
    ¬ SpaceCh d := by
  unfold upperChS at hd
  split_ifs at hd
  · simp at hd; subst hd; decide
  · simp at hd; subst hd; decide
  · simp at hd; rcases hd with rfl | rfl <;> decide
  · simp at hd; rcases hd with rfl | rfl <;> decide
  · rw [List.mem_singleton] at hd
    subst hd
    exact fun hs => hc ((spaceCh_upperCh c).mp hs)

theorem mem45_capFirst_pyLower (t : PyStr) :
    45 ∈ capFirst (pyLower t) ↔ 45 ∈ t := by
  cases t with
  | nil => rfl
  | cons c cs =>
    show 45 ∈ upperChS (lowerCh c) ++ pyLower cs ↔ 45 ∈ c :: cs
    rw [List.mem_append, List.mem_cons]
    refine or_congr ?_ (mem45_pyLower cs)
    rw [mem45_upperChS, lowerCh_eq_45]
    exact eq_comm

/-! ## `str.split()` / join lemmas -/

theorem wsSplitAux_append (t : PyStr) (hs : ∀ c ∈ t, ¬ SpaceCh c) :
    ∀ (r acc : PyStr), wsSplitAux (t ++ r) acc = wsSplitAux r (t.reverse ++ acc) := by
  induction t with
  | nil => intro r acc; simp
  | cons c t ih =>
    intro r acc
    have hc : ¬ SpaceCh c := hs c (List.mem_cons_self ..)
    have ht : ∀ x ∈ t, ¬ SpaceCh x := fun x hx => hs x (List.mem_cons_of_mem _ hx)
    simp only [List.cons_append, wsSplitAux, if_neg hc, List.append_eq]
    rw [ih ht r (c :: acc)]
    simp [List.reverse_cons, List.append_assoc]

theorem wsSplitAux_space (c : Nat) (hc : SpaceCh c) (r acc : PyStr) :
    wsSplitAux (c :: r) acc =
      if acc.isEmpty then wsSplitAux r [] else acc.reverse :: wsSplitAux r [] := by
  simp only [wsSplitAux, if_pos hc]

/-- A "good" token: nonempty and whitespace-free (what `split()` yields). -/
def GoodTok (t : PyStr) : Prop := t ≠ [] ∧ ∀ c ∈ t, ¬ SpaceCh c

theorem wsSplit_joinSep (toks : List PyStr) (h : ∀ t ∈ toks, GoodTok t) :
    wsSplit (joinSep 32 toks) = toks := by
  induction toks with
  | nil => rfl
  | cons t ts ih =>
    have hgt := h t (List.mem_cons_self ..)
    have hts : ∀ x ∈ ts, GoodTok x := fun x hx => h x (List.mem_cons_of_mem _ hx)
    have hne : (t.reverse ++ ([] : PyStr)).isEmpty = false := by
      simp [List.isEmpty_iff, hgt.1]
    cases ts with
    | nil =>
      have h1 := wsSplitAux_append t hgt.2 [] []
      rw [List.append_nil] at h1
      show wsSplitAux t [] = [t]
      rw [h1]
      simp [wsSplitAux, List.isEmpty_iff, hgt.1]
    | cons t' ts' =>
      show wsSplitAux (t ++ 32 :: joinSep 32 (t' :: ts')) [] = t :: t' :: ts'
      rw [wsSplitAux_append t hgt.2 _ [], wsSplitAux_space 32 (by decide) _ _, if_neg]
      · rw [List.append_nil, List.reverse_reverse]
        exact congrArg _ (ih hts)
      · simp [List.isEmpty_iff, hgt.1]

theorem wsSplitAux_good (s : PyStr) :
    ∀ acc : PyStr, (∀ c ∈ acc, ¬ SpaceCh c) → ∀ t ∈ wsSplitAux s acc, GoodTok t := by
  induction s with
  | nil =>
    intro acc hacc t ht
    simp only [wsSplitAux] at ht
    split at ht
    · simp at ht
    · next hne =>
      simp only [List.mem_singleton] at ht
      subst ht
      refine ⟨?_, fun c hc => hacc c (List.mem_reverse.mp hc)⟩
      simp only [List.isEmpty_iff] at hne
      simpa using hne
  | cons c cs ih =>
    intro acc hacc t ht
    simp only [wsSplitAux] at ht
    split at ht
    · split at ht
      · exact ih [] (by simp) t ht
      · next hne =>
        rcases List.mem_cons.mp ht with rfl | h
        · refine ⟨?_, fun x hx => hacc x (List.mem_reverse.mp hx)⟩
          simp only [List.isEmpty_iff] at hne
          simpa using hne
        · exact ih [] (by simp) t h
    · next hcs =>
      refine ih (c :: acc) ?_ t ht
      intro x hx
      rcases List.mem_cons.mp hx with rfl | h
      · exact hcs
      · exact hacc x h

theorem wsSplit_good (s : PyStr) : ∀ t ∈ wsSplit s, GoodTok t :=
  wsSplitAux_good s [] (by simp)

theorem joinSep_cons_of_ne (sep : Nat) (t : PyStr) (ts : List PyStr) (h : ts ≠ []) :
    joinSep sep (t :: ts) = t ++ sep :: joinSep sep ts := by
  cases ts with
  | nil => exact absurd rfl h
  | cons a l => rfl

theorem joinSep_ne_nil (sep : Nat) (toks : List PyStr) (h : toks ≠ [])
    (h2 : ∀ t ∈ toks, t ≠ []) : joinSep sep toks ≠ [] := by
  cases toks with
  | nil => exact absurd rfl h
  | cons t ts =>
    cases ts with
    | nil => exact h2 t (List.mem_cons_self ..)
    | cons a l => simp [joinSep]

theorem mem_joinSep (sep : Nat) (toks : List PyStr) (t : PyStr) (ht : t ∈ toks) :
    ∀ c ∈ t, c ∈ joinSep sep toks := by
  induction toks with
  | nil => simp at ht
  | cons x ts ih =>
    intro c hc
    cases ts with
    | nil =>
      simp only [List.mem_singleton] at ht
      subst ht; exact hc
    | cons a l =>
      rw [joinSep_cons_of_ne sep x _ (by simp)]
      rcases List.mem_cons.mp ht with rfl | h
      · exact List.mem_append_left _ hc
      · exact List.mem_append_right _ (List.mem_cons_of_mem _ (ih h c hc))

theorem sep_mem_joinSep (sep : Nat) (toks : List PyStr) (h : 2 ≤ toks.length) :
    sep ∈ joinSep sep toks := by
  match toks, h with
  | t :: t' :: ts, _ =>
    rw [joinSep_cons_of_ne sep t _ (by simp)]
    exact List.mem_append_right _ (List.mem_cons_self ..)

theorem mem_of_mem_joinSep (sep : Nat) (toks : List PyStr) (c : Nat)
    (hc : c ∈ joinSep sep toks) : c = sep ∨ ∃ t ∈ toks, c ∈ t := by
  induction toks with
  | nil => simp [joinSep] at hc
  | cons t ts ih =>
    cases ts with
    | nil =>
      exact Or.inr ⟨t, List.mem_singleton.mpr rfl, hc⟩
    | cons a l =>
      rw [joinSep_cons_of_ne sep t _ (by simp)] at hc
      rcases List.mem_append.mp hc with h | h
      · exact Or.inr ⟨t, List.mem_cons_self .., h⟩
      · rcases List.mem_cons.mp h with rfl | h
        · exact Or.inl rfl
        · rcases ih h with h | ⟨x, hx, hcx⟩
          · exact Or.inl h
          · exact Or.inr ⟨x, List.mem_cons_of_mem _ hx, hcx⟩

theorem joinSep_length (sep : Nat) (l : List PyStr) :
    (joinSep sep l).length = (l.map List.length).sum + l.length - 1 := by
  induction l with
  | nil => simp [joinSep]
  | cons t ts ih =>
    cases ts with
    | nil => simp [joinSep]
    | cons a l' =>
      rw [joinSep_cons_of_ne sep t _ (by simp)]
      simp only [List.length_append, List.length_cons, ih, List.map_cons,
        List.sum_cons, List.length_cons]
      have : (a.length + (l'.map List.length).sum) + (l'.length + 1) ≥ 1 := by omega
      omega

/-! ## Hyphen-split lemmas -/

theorem splitHyph_ne_nil (s : PyStr) : splitHyph s ≠ [] := by
  cases s with
  | nil => simp [splitHyph]
  | cons c cs =>
    by_cases h : c = 45
    · simp [splitHyph, h]
    · simp only [splitHyph, if_neg h]
      split <;> simp

theorem splitHyph_45_free (s : PyStr) : ∀ p ∈ splitHyph s, 45 ∉ p := by
  induction s with
  | nil => intro p hp; simp only [splitHyph, List.mem_singleton] at hp; simp [hp]
  | cons c cs ih =>
    intro p hp
    by_cases h : c = 45
    · simp only [splitHyph, if_pos h] at hp
      rcases List.mem_cons.mp hp with rfl | hp
      · simp
      · exact ih p hp
    · simp only [splitHyph, if_neg h] at hp
      rcases hsp : splitHyph cs with _ | ⟨t, ts⟩
      · exact absurd hsp (splitHyph_ne_nil cs)
      · rw [hsp] at hp
        rcases List.mem_cons.mp hp with rfl | hp
        · intro hmem
          rcases List.mem_cons.mp hmem with h45 | h45
          · exact h h45.symm
          · exact ih t (hsp ▸ List.mem_cons_self ..) h45
        · exact ih p (hsp ▸ List.mem_cons_of_mem _ hp)

theorem splitHyph_of_45_free (t : PyStr) (h : 45 ∉ t) : splitHyph t = [t] := by
  induction t with
  | nil => rfl
  | cons c cs ih =>
    have hc : c ≠ 45 := fun hc => h (hc ▸ List.mem_cons_self ..)
    have hcs : 45 ∉ cs := fun hm => h (List.mem_cons_of_mem _ hm)
    simp only [splitHyph, if_neg hc, ih hcs]

theorem splitHyph_append_45 (t r : PyStr) (h : 45 ∉ t) :
    splitHyph (t ++ 45 :: r) = t :: splitHyph r := by
  induction t with
  | nil => simp [splitHyph]
  | cons c cs ih =>
    have hc : c ≠ 45 := fun hc => h (hc ▸ List.mem_cons_self ..)
    have hcs : 45 ∉ cs := fun hm => h (List.mem_cons_of_mem _ hm)
    rw [List.cons_append]
    simp only [splitHyph, if_neg hc, List.append_eq, ih hcs]

theorem splitHyph_joinSep (segs : List PyStr) (hne : segs ≠ [])
    (h45 : ∀ p ∈ segs, 45 ∉ p) : splitHyph (joinSep 45 segs) = segs := by
  induction segs with
  | nil => exact absurd rfl hne
  | cons t ts ih =>
    cases ts with
    | nil => exact splitHyph_of_45_free t (h45 t (List.mem_cons_self ..))
    | cons a l =>
      rw [joinSep_cons_of_ne 45 t _ (by simp),
        splitHyph_append_45 t _ (h45 t (List.mem_cons_self ..))]
      exact congrArg _ (ih (by simp) fun p hp => h45 p (List.mem_cons_of_mem _ hp))

theorem joinSep_splitHyph (s : PyStr) : joinSep 45 (splitHyph s) = s := by
  induction s with
  | nil => rfl
  | cons c cs ih =>
    by_cases h : c = 45
    · subst h
      have hsp : splitHyph (45 :: cs) = [] :: splitHyph cs := by simp [splitHyph]
      rw [hsp, joinSep_cons_of_ne 45 [] _ (splitHyph_ne_nil cs)]
      simp [ih]
    · simp only [splitHyph, if_neg h]
      rcases hsp : splitHyph cs with _ | ⟨t, ts⟩
      · exact absurd hsp (splitHyph_ne_nil cs)
      · rw [hsp] at ih
        cases ts with
        | nil => simpa [joinSep] using congrArg (c :: ·) ih
        | cons a l =>
          rw [joinSep_cons_of_ne 45 (c :: t) _ (by simp), List.cons_append,
            ← joinSep_cons_of_ne 45 t _ (by simp), ih]

theorem two_le_splitHyph_length (s : PyStr) (h : 45 ∈ s) :
    2 ≤ (splitHyph s).length := by
  induction s with
  | nil => simp at h
  | cons c cs ih =>
    by_cases hc : c = 45
    · simp only [splitHyph, if_pos hc, List.length_cons]
      have := splitHyph_ne_nil cs
      have : 1 ≤ (splitHyph cs).length := List.length_pos.mpr this
      omega
    · have hcs : 45 ∈ cs := by
        rcases List.mem_cons.mp h with h45 | h45
        · exact absurd h45.symm hc
        · exact h45
      simp only [splitHyph, if_neg hc]
      rcases hsp : splitHyph cs with _ | ⟨t, ts⟩
      · exact absurd hsp (splitHyph_ne_nil cs)
      · have := ih hcs
        rw [hsp] at this
        simpa using this

/-! ## `_titlecase_word` lemmas -/

theorem tw_shape (t : PyStr) (b : Bool) :
    titlecaseWord t b = t ∨ titlecaseWord t b = pyLower t ∨
      titlecaseWord t b = capFirst (pyLower t) := by
  unfold titlecaseWord
  split_ifs <;> tauto

theorem tw_length (t : PyStr) (b : Bool) (ha : AsciiStr t) :
    (titlecaseWord t b).length = t.length := by
  rcases tw_shape t b with h | h | h <;> rw [h]
  · simp [pyLower]
  · rw [capFirst_length_ascii _ (ascii_pyLower t ha)]
    simp [pyLower]

theorem tw_ne_nil (t : PyStr) (b : Bool) (h : t ≠ []) : titlecaseWord t b ≠ [] := by
  rcases tw_shape t b with hs | hs | hs <;> rw [hs]
  · exact h
  · simp [pyLower, h]
  · cases t with
    | nil => exact absurd rfl h
    | cons c cs =>
      show upperChS (lowerCh c) ++ pyLower cs ≠ []
      intro hc
      exact upperChS_ne_nil _ (List.append_eq_nil.mp hc).1

theorem tw_mem45 (t : PyStr) (b : Bool) : 45 ∈ titlecaseWord t b ↔ 45 ∈ t := by
  rcases tw_shape t b with h | h | h <;> rw [h]
  · exact mem45_pyLower t
  · exact mem45_capFirst_pyLower t

theorem tw_spacefree (t : PyStr) (b : Bool) (h : ∀ c ∈ t, ¬ SpaceCh c) :
    ∀ c ∈ titlecaseWord t b, ¬ SpaceCh c := by
  rcases tw_shape t b with hs | hs | hs <;> rw [hs]
  · exact h
  · intro c hc
    rcases List.mem_map.mp hc with ⟨x, hx, rfl⟩
    exact fun hsp => h x hx ((spaceCh_lowerCh x).mp hsp)
  · cases t with
    | nil => simp [capFirst, pyLower]
    | cons a l =>
      intro c hc
      rw [show capFirst (pyLower (a :: l)) = upperChS (lowerCh a) ++ pyLower l from rfl,
        List.mem_append] at hc
      rcases hc with hc | hc
      · have hla : ¬ SpaceCh (lowerCh a) := fun hsp =>
          h a (List.mem_cons_self ..) ((spaceCh_lowerCh a).mp hsp)
        exact not_space_mem_upperChS _ _ hla hc
      · rcases List.mem_map.mp hc with ⟨x, hx, rfl⟩
        exact fun hsp => h x (List.mem_cons_of_mem _ hx) ((spaceCh_lowerCh x).mp hsp)

/-! ## Acronym lemmas and `_titlecase_word` idempotence -/

theorem not_strIsUpper_pyLower (s : PyStr) : ¬ StrIsUpper (pyLower s) := by
  rintro ⟨⟨c, hc, hAlpha⟩, hAll⟩
  rcases List.mem_map.mp hc with ⟨d, hd, rfl⟩
  exact hAll _ hc ((lowerCh_isLower d).mpr ((alphaCh_lowerCh d).mp hAlpha))

theorem acronym_mix_pyLower (t : PyStr) :
    (((∃ c ∈ pyLower t, DigitCh c) ∧ ∃ c ∈ pyLower t, AlphaCh c) ↔
      ((∃ c ∈ t, DigitCh c) ∧ ∃ c ∈ t, AlphaCh c)) := by
  simp only [pyLower, List.mem_map]
  constructor
  · rintro ⟨⟨c, ⟨d, hd, rfl⟩, hdig⟩, ⟨c', ⟨d', hd', rfl⟩, halp⟩⟩
    exact ⟨⟨d, hd, (digitCh_lowerCh d).mp hdig⟩, ⟨d', hd', (alphaCh_lowerCh d').mp halp⟩⟩
  · rintro ⟨⟨c, hc, hdig⟩, ⟨c', hc', halp⟩⟩
    exact ⟨⟨lowerCh c, ⟨c, hc, rfl⟩, (digitCh_lowerCh c).mpr hdig⟩,
           ⟨lowerCh c', ⟨c', hc', rfl⟩, (alphaCh_lowerCh c').mpr halp⟩⟩

theorem acronym_mix_capFirst (t : PyStr) (ha : AsciiStr t) :
    (((∃ c ∈ capFirst (pyLower t), DigitCh c) ∧ ∃ c ∈ capFirst (pyLower t), AlphaCh c) ↔
      ((∃ c ∈ t, DigitCh c) ∧ ∃ c ∈ t, AlphaCh c)) := by
  cases t with
  | nil => simp [capFirst, pyLower]
  | cons a l =>
    rw [show pyLower (a :: l) = lowerCh a :: pyLower l from rfl,
      capFirst_cons_ascii _ _ (lowerCh_lt_128 a (ha a (List.mem_cons_self ..)))]
    have key : ∀ (P : Nat → Prop), (∀ c, P (lowerCh c) ↔ P c) → (∀ c, P (upperCh c) ↔ P c) →
        ((∃ c ∈ upperCh (lowerCh a) :: pyLower l, P c) ↔ ∃ c ∈ a :: l, P c) := by
      intro P hl hu
      simp only [List.mem_cons, pyLower, List.mem_map]
      constructor
      · rintro ⟨c, rfl | ⟨d, hd, rfl⟩, hP⟩
        · exact ⟨a, Or.inl rfl, (hl a).mp ((hu _).mp hP)⟩
        · exact ⟨d, Or.inr hd, (hl d).mp hP⟩
      · rintro ⟨c, rfl | hd, hP⟩
        · exact ⟨upperCh (lowerCh c), Or.inl rfl, (hu _).mpr ((hl c).mpr hP)⟩
        · exact ⟨lowerCh c, Or.inr ⟨c, hd, rfl⟩, (hl c).mpr hP⟩
    exact and_congr (key DigitCh digitCh_lowerCh digitCh_upperCh)
      (key AlphaCh alphaCh_lowerCh alphaCh_upperCh)

theorem not_isAcronym_pyLower (t : PyStr) (hne : t ≠ []) (h : ¬ IsAcronym t) :
    ¬ IsAcronym (pyLower t) := by
  rintro ⟨hne', hcase⟩
  rcases hcase with ⟨hU, _, _⟩ | hmix
  · exact not_strIsUpper_pyLower t hU
  · exact h ⟨hne, Or.inr ((acronym_mix_pyLower t).mp hmix)⟩

theorem not_isAcronym_capFirst (t : PyStr) (hne : t ≠ []) (h : ¬ IsAcronym t)
    (ha : AsciiStr t) : ¬ IsAcronym (capFirst (pyLower t)) := by
  rintro ⟨hne', hcase⟩
  rcases hcase with ⟨hU, hA, hlen⟩ | hmix
  · cases t with
    | nil => exact hne rfl
    | cons a l =>
      cases l with
      | nil =>
        rw [show pyLower [a] = [lowerCh a] from rfl,
          capFirst_cons_ascii _ _
            (lowerCh_lt_128 a (ha a (List.mem_cons_self ..)))] at hlen
        simp at hlen
      | cons b l' =>
        have hmem : lowerCh b ∈ capFirst (pyLower (a :: b :: l')) := by
          show lowerCh b ∈ upperChS (lowerCh a) ++ lowerCh b :: pyLower l'
          exact List.mem_append_right _ (List.mem_cons_self ..)
        have halpha : AlphaCh (lowerCh b) := hA.2 _ hmem
        exact hU.2 _ hmem ((lowerCh_isLower b).mpr ((alphaCh_lowerCh b).mp halpha))
  · exact h ⟨hne, Or.inr ((acronym_mix_capFirst t ha).mp hmix)⟩

theorem tw_idem (t : PyStr) (b : Bool) (ha : AsciiStr t) :
    titlecaseWord (titlecaseWord t b) b = titlecaseWord t b := by
  by_cases hnil : t = []
  · subst hnil; rfl
  by_cases hacr : IsAcronym t
  · rw [show titlecaseWord t b = t by unfold titlecaseWord; rw [if_neg hnil, if_pos hacr]]
    unfold titlecaseWord; rw [if_neg hnil, if_pos hacr]
  by_cases hsw : b = false ∧ pyLower t ∈ smallWords
  · have h1 : titlecaseWord t b = pyLower t := by
      unfold titlecaseWord; rw [if_neg hnil, if_neg hacr, if_pos hsw]
    rw [h1]
    have hne2 : pyLower t ≠ [] := by
      simp [pyLower, hnil]
    have hacr2 : ¬ IsAcronym (pyLower t) := not_isAcronym_pyLower t hnil hacr
    have hlo2 : pyLower (pyLower t) = pyLower t := pyLower_pyLower t
    unfold titlecaseWord
    rw [if_neg hne2, if_neg hacr2, hlo2, if_pos hsw]
  · have h1 : titlecaseWord t b = capFirst (pyLower t) := by
      unfold titlecaseWord; rw [if_neg hnil, if_neg hacr, if_neg hsw]
    rw [h1]
    have hne2 : capFirst (pyLower t) ≠ [] := by
      cases t with
      | nil => exact absurd rfl hnil
      | cons a l =>
        show upperChS (lowerCh a) ++ pyLower l ≠ []
        intro hc
        exact upperChS_ne_nil _ (List.append_eq_nil.mp hc).1
    have hacr2 : ¬ IsAcronym (capFirst (pyLower t)) :=
      not_isAcronym_capFirst t hnil hacr ha
    have hlo2 : pyLower (capFirst (pyLower t)) = pyLower t :=
      pyLower_capFirst_pyLower t ha
    unfold titlecaseWord
    rw [if_neg hne2, if_neg hacr2, hlo2, if_neg hsw]

/-! ## `_titlecase_hyphenated` and token-loop lemmas -/

theorem tcSegs_idem (n : Nat) (f l : Bool) :
    ∀ (i : Nat) (segs : List PyStr), (∀ p ∈ segs, AsciiStr p) →
      tcSegs n f l i (tcSegs n f l i segs) = tcSegs n f l i segs := by
  intro i segs
  induction segs generalizing i with
  | nil => intro _; rfl
  | cons seg rest ih =>
    intro ha
    have h1 := tw_idem seg (hyphFlag n i f l) (ha seg (List.mem_cons_self ..))
    simp only [tcSegs, h1, ih (i + 1) fun p hp => ha p (List.mem_cons_of_mem _ hp)]

theorem tcSegs_map_length (n : Nat) (f l : Bool) :
    ∀ (i : Nat) (segs : List PyStr), (∀ p ∈ segs, AsciiStr p) →
      (tcSegs n f l i segs).map List.length = segs.map List.length := by
  intro i segs
  induction segs generalizing i with
  | nil => intro _; rfl
  | cons seg rest ih =>
    intro ha
    have h1 := tw_length seg (hyphFlag n i f l) (ha seg (List.mem_cons_self ..))
    simp only [tcSegs, List.map_cons, h1,
      ih (i + 1) fun p hp => ha p (List.mem_cons_of_mem _ hp)]

theorem tcSegs_length (n : Nat) (f l : Bool) :
    ∀ (i : Nat) (segs : List PyStr), (tcSegs n f l i segs).length = segs.length := by
  intro i segs
  induction segs generalizing i with
  | nil => rfl
  | cons seg rest ih => simp only [tcSegs, List.length_cons, ih (i + 1)]

theorem tcSegs_45_free (n : Nat) (f l : Bool) :
    ∀ (i : Nat) (segs : List PyStr), (∀ p ∈ segs, 45 ∉ p) →
      ∀ p ∈ tcSegs n f l i segs, 45 ∉ p := by
  intro i segs
  induction segs generalizing i with
  | nil => intro _ p hp; simp [tcSegs] at hp
  | cons seg rest ih =>
    intro hfree p hp
    rcases List.mem_cons.mp hp with rfl | hp
    · exact fun hm =>
        hfree seg (List.mem_cons_self ..) ((tw_mem45 seg _).mp hm)
    · exact ih (i + 1) (fun q hq => hfree q (List.mem_cons_of_mem _ hq)) p hp

theorem splitHyph_ascii (t : PyStr) (h : AsciiStr t) :
    ∀ p ∈ splitHyph t, AsciiStr p := by
  intro p hp c hc
  refine h c ?_
  have := mem_joinSep 45 (splitHyph t) p hp c hc
  rwa [joinSep_splitHyph] at this

theorem th_length (t : PyStr) (f l : Bool) (ha : AsciiStr t) :
    (titlecaseHyphenated t f l).length = t.length := by
  unfold titlecaseHyphenated
  rw [joinSep_length, tcSegs_map_length _ _ _ _ _ (splitHyph_ascii t ha),
    tcSegs_length, ← joinSep_length 45, joinSep_splitHyph]

theorem th_mem45 (t : PyStr) (f l : Bool) (h : 45 ∈ t) :
    45 ∈ titlecaseHyphenated t f l := by
  unfold titlecaseHyphenated
  refine sep_mem_joinSep 45 _ ?_
  rw [tcSegs_length]
  exact two_le_splitHyph_length t h

theorem th_idem (t : PyStr) (f l : Bool) (ha : AsciiStr t) :
    titlecaseHyphenated (titlecaseHyphenated t f l) f l = titlecaseHyphenated t f l := by
  unfold titlecaseHyphenated
  have hfree : ∀ p ∈ tcSegs (splitHyph t).length f l 0 (splitHyph t), 45 ∉ p :=
    tcSegs_45_free _ f l 0 _ (splitHyph_45_free t)
  have hne : tcSegs (splitHyph t).length f l 0 (splitHyph t) ≠ [] := by
    intro hc
    have := tcSegs_length (splitHyph t).length f l 0 (splitHyph t)
    rw [hc] at this
    exact splitHyph_ne_nil t (List.length_eq_zero.mp this.symm)
  rw [splitHyph_joinSep _ hne hfree, tcSegs_length,
    tcSegs_idem _ _ _ _ _ (splitHyph_ascii t ha)]

theorem procTok_length (t : PyStr) (f l : Bool) (ha : AsciiStr t) :
    (procTok t f l).length = t.length := by
  unfold procTok
  split_ifs with h
  · exact th_length t f l ha
  · exact tw_length t _ ha

theorem procTok_ne_nil (t : PyStr) (f l : Bool) (h : t ≠ []) : procTok t f l ≠ [] := by
  unfold procTok
  split_ifs with hc
  · exact List.ne_nil_of_mem (th_mem45 t f l hc.1)
  · exact tw_ne_nil t _ h

theorem procTok_idem (t : PyStr) (f l : Bool) (ha : AsciiStr t) :
    procTok (procTok t f l) f l = procTok t f l := by
  unfold procTok
  split_ifs with h h2 h2
  · exact th_idem t f l ha
  · exact absurd ⟨th_mem45 t f l h.1, by rw [th_length t f l ha]; exact h.2⟩ h2
  · exact absurd ⟨(tw_mem45 t _).mp h2.1,
      by rw [tw_length t _ ha] at h2; exact h2.2⟩ h
  · exact tw_idem t _ ha

theorem tcSegs_spacefree (n : Nat) (f l : Bool) :
    ∀ (i : Nat) (segs : List PyStr), (∀ q ∈ segs, ∀ x ∈ q, ¬ SpaceCh x) →
      ∀ p ∈ tcSegs n f l i segs, ∀ x ∈ p, ¬ SpaceCh x := by
  intro i segs
  induction segs generalizing i with
  | nil => intro _ p hp; simp [tcSegs] at hp
  | cons seg rest ih =>
    intro hsf p hp
    rcases List.mem_cons.mp hp with rfl | hp
    · exact tw_spacefree seg _ (hsf seg (List.mem_cons_self ..))
    · exact ih (i + 1) (fun q hq => hsf q (List.mem_cons_of_mem _ hq)) p hp

theorem procTok_spacefree (t : PyStr) (f l : Bool) (h : ∀ c ∈ t, ¬ SpaceCh c) :
    ∀ c ∈ procTok t f l, ¬ SpaceCh c := by
  unfold procTok
  split_ifs with hcond
  · unfold titlecaseHyphenated
    intro c hc
    rcases mem_of_mem_joinSep 45 _ c hc with rfl | ⟨p, hp, hcp⟩
    · decide
    · have hsegs : ∀ q ∈ splitHyph t, ∀ x ∈ q, ¬ SpaceCh x := by
        intro q hq x hx
        exact h x (by
          have := mem_joinSep 45 (splitHyph t) q hq x hx
          rwa [joinSep_splitHyph] at this)
      exact tcSegs_spacefree _ f l 0 _ hsegs p hp c hcp
  · exact tw_spacefree t _ h

theorem procToks_idem (n : Nat) :
    ∀ (i : Nat) (ts : List PyStr), (∀ t ∈ ts, AsciiStr t) →
      procToks n i (procToks n i ts) = procToks n i ts := by
  intro i ts
  induction ts generalizing i with
  | nil => intro _; rfl
  | cons t rest ih =>
    intro ha
    have h1 := procTok_idem t (i == 0) (i == n - 1) (ha t (List.mem_cons_self ..))
    simp only [procToks, h1, ih (i + 1) fun x hx => ha x (List.mem_cons_of_mem _ hx)]

theorem procToks_length (n : Nat) :
    ∀ (i : Nat) (ts : List PyStr), (procToks n i ts).length = ts.length := by
  intro i ts
  induction ts generalizing i with
  | nil => rfl
  | cons t rest ih => simp only [procToks, List.length_cons, ih (i + 1)]

theorem procToks_good (n : Nat) :
    ∀ (i : Nat) (ts : List PyStr), (∀ t ∈ ts, GoodTok t) →
      ∀ t' ∈ procToks n i ts, GoodTok t' := by
  intro i ts
  induction ts generalizing i with
  | nil => intro _ t' ht'; simp [procToks] at ht'
  | cons t rest ih =>
    intro hg t' ht'
    rcases List.mem_cons.mp ht' with rfl | ht'
    · have := hg t (List.mem_cons_self ..)
      exact ⟨procTok_ne_nil t _ _ this.1, procTok_spacefree t _ _ this.2⟩
    · exact ih (i + 1) (fun x hx => hg x (List.mem_cons_of_mem _ hx)) t' ht'

theorem wsSplitAux_chars (s : PyStr) :
    ∀ (acc t : PyStr), t ∈ wsSplitAux s acc → ∀ c ∈ t, c ∈ s ∨ c ∈ acc := by
  induction s with
  | nil =>
    intro acc t ht c hc
    simp only [wsSplitAux] at ht
    split at ht
    · simp at ht
    · rw [List.mem_singleton] at ht
      subst ht
      exact Or.inr (List.mem_reverse.mp hc)
  | cons a cs ih =>
    intro acc t ht c hc
    simp only [wsSplitAux] at ht
    split at ht
    · split at ht
      · rcases ih [] t ht c hc with h | h
        · exact Or.inl (List.mem_cons_of_mem _ h)
        · simp at h
      · rcases List.mem_cons.mp ht with rfl | h
        · exact Or.inr (List.mem_reverse.mp hc)
        · rcases ih [] t h c hc with h2 | h2
          · exact Or.inl (List.mem_cons_of_mem _ h2)
          · simp at h2
    · rcases ih (a :: acc) t ht c hc with h | h
      · exact Or.inl (List.mem_cons_of_mem _ h)
      · rcases List.mem_cons.mp h with rfl | h2
        · exact Or.inl (List.mem_cons_self ..)
        · exact Or.inr h2

theorem wsSplit_ascii (s : PyStr) (h : AsciiStr s) : ∀ t ∈ wsSplit s, AsciiStr t := by
  intro t ht c hc
  rcases wsSplitAux_chars s [] t ht c hc with h2 | h2
  · exact h c h2
  · simp at h2

/-- C10 counterexample: `titlecase_expertise` is not idempotent on the
program's strings.  `'ß'.upper()` is the two-character `"SS"`, so the
phrase `"ßb"` title-cases to `"SSb"`, which title-cases again to `"Ssb"`
(the same happens for the `ﬁ`-ligature: `"ﬁsh"` → `"FIsh"` → `"Fish"`). -/
theorem C10_titlecase_not_idempotent :
    titlecaseExpertise (pyStr "ßb") = pyStr "SSb" ∧
    titlecaseExpertise (titlecaseExpertise (pyStr "ßb")) = pyStr "Ssb" ∧
    titlecaseExpertise (titlecaseExpertise (pyStr "ßb")) ≠
      titlecaseExpertise (pyStr "ßb") := by
  exact ⟨by decide, by decide, by decide⟩

/-- C10 as amended: `titlecase_expertise` is idempotent on every phrase of
ASCII characters, so re-running the pipeline re-title-cases
already-stored ASCII phrases to themselves; it is not idempotent in
general, because a character whose Unicode uppercase expands to several
characters (`ß` → `SS`, `ﬁ` → `FI`) turns into a fresh
first-upper-rest-lower token on the second run. -/
theorem C10_titlecase_idempotent_ascii (p : PyStr) (hA : AsciiStr p) :
    titlecaseExpertise (titlecaseExpertise p) = titlecaseExpertise p := by
  by_cases h0 : pyNorm p = []
  · rw [show titlecaseExpertise p = pyNorm p by
      unfold titlecaseExpertise; rw [if_pos h0]]
    rw [h0]
    rfl
  · -- the tokens of the normalised phrase
    have htoks : ∀ t ∈ wsSplit (pyNorm p), GoodTok t := wsSplit_good (pyNorm p)
    have hrt : wsSplit (pyNorm p) = wsSplit p := by
      unfold pyNorm
      exact wsSplit_joinSep _ (wsSplit_good p)
    have htoksascii : ∀ t ∈ wsSplit (pyNorm p), AsciiStr t := by
      rw [hrt]
      exact wsSplit_ascii p hA
    have htoksne : wsSplit (pyNorm p) ≠ [] := by
      intro hc
      rw [hrt] at hc
      refine h0 ?_
      unfold pyNorm
      rw [hc]
      rfl
    set toks := wsSplit (pyNorm p) with htoksdef
    set n := toks.length with hn
    have h1 : titlecaseExpertise p = joinSep 32 (procToks n 0 toks) := by
      unfold titlecaseExpertise
      rw [if_neg h0]
    have hgood' : ∀ t ∈ procToks n 0 toks, GoodTok t := procToks_good n 0 toks htoks
    have hne' : procToks n 0 toks ≠ [] := by
      intro hc
      have := procToks_length n 0 toks
      rw [hc] at this
      exact htoksne (List.length_eq_zero.mp this.symm)
    have hr_ne : joinSep 32 (procToks n 0 toks) ≠ [] :=
      joinSep_ne_nil 32 _ hne' fun t ht => (hgood' t ht).1
    have hnorm_r : pyNorm (joinSep 32 (procToks n 0 toks)) =
        joinSep 32 (procToks n 0 toks) := by
      unfold pyNorm
      rw [wsSplit_joinSep _ hgood']
    rw [h1]
    unfold titlecaseExpertise
    rw [if_neg (by rw [hnorm_r]; exact hr_ne), hnorm_r,
      wsSplit_joinSep _ hgood', procToks_length, procToks_idem n 0 toks htoksascii]

theorem C10_titlecase_idempotent_ascii_witness :
    AsciiStr (pyStr "deep-sea carbon capture and storage") ∧
      titlecaseExpertise
          (titlecaseExpertise (pyStr "deep-sea carbon capture and storage")) =
        titlecaseExpertise (pyStr "deep-sea carbon capture and storage") :=
  ⟨by decide,
    C10_titlecase_idempotent_ascii (pyStr "deep-sea carbon capture and storage")
      (by decide)⟩

/-- C5: the spec's title-casing example, including the acronym token, the
hyphen-bounded segments and the connective small words. -/
theorem titlecaseExpertise_example :
    titlecaseExpertise (pyStr "state-of-the-art CO2 capture and the sea") =
      pyStr "State-of-the-Art CO2 Capture and the Sea" := by decide

/-! ## C4: the organisational filter -/

/-- C4: a research output is kept by the organisational filter iff some
`organisationalUnits` entry carries the target uuid or the managing unit
does; a record matching neither only increments the skip counter — no
ResearchOutput row (nor tag or collaborator row) is written for it. -/
theorem C4_org_filter :
    (∀ (item : ROItem) (org : String),
        filterByOrganization item org = true ↔
          ((∃ o ∈ item.orgUnits, o.uuid = some org) ∨
            item.managingOrgUuid = some org)) ∧
    (∀ (st : ROState) (item : ROItem),
        filterByOrganization item targetOrgUuid = false →
          processOutputItem st item = { st with skipped := st.skipped + 1 }) := by
  constructor
  · intro item org
    simp [filterByOrganization, List.any_eq_true]
  · intro st item h
    unfold processOutputItem
    rw [if_pos h]

/-- An output record associated with a foreign unit only. -/
def foreignItem : ROItem :=
  { uuid := some "ro-foreign", titleValue := pyStr "Some Title",
    orgUnits := [{ uuid := some "other-unit" }], managingOrgUuid := some "other-unit" }

theorem C4_org_filter_witness :
    filterByOrganization foreignItem targetOrgUuid = false ∧
      processOutputItem {} foreignItem = { ({} : ROState) with skipped := 1 } :=
  ⟨by decide, C4_org_filter.2 {} foreignItem (by decide)⟩

/-! ## C6: the last-non-null-wins merge policy -/

/-- Field-level merge contract: the stored value keeps the old one exactly
when the incoming one is null, and takes any non-null incoming value. -/
def LastNonNullWins {α : Type} (old new merged : Option α) : Prop :=
  (new = none → merged = old) ∧ ∀ v, new = some v → merged = some v

theorem lastNonNullWins_orElse {α : Type} (old new : Option α) :
    LastNonNullWins old new (new.orElse fun _ => old) := by
  constructor
  · rintro rfl; rfl
  · rintro v rfl; rfl

/-- The first upsert of the spec's C6 example. -/
def roFirst : RORow := { uuid := "o1", name := some "T", abstract := none }

/-- The second upsert of the spec's C6 example. -/
def roSecond : RORow := { uuid := "o1", name := none, abstract := some "A" }

/-- C6: upserting `{title: "T", abstract: null}` then `{title: null,
abstract: "A"}` under one id leaves `{title: "T", abstract: "A"}`; and in
general a ResearchOutput or Grant upsert that merges with an existing row
of the same id keeps every field whose incoming value is null and
overwrites exactly the fields with non-null incoming values, touching no
other row. -/
theorem C6_merge_policy :
    (∃ e, upsertRORow (upsertRORow [] roFirst) roSecond = [e] ∧
        e.name = some "T" ∧ e.abstract = some "A") ∧
    (∀ (t : List RORow) (r e : RORow), e ∈ t → e.uuid = r.uuid →
        mergeRORow e r ∈ upsertRORow t r ∧
        (∀ x ∈ upsertRORow t r, x.uuid ≠ r.uuid → x ∈ t) ∧
        (upsertRORow t r).length = t.length ∧
        (mergeRORow e r).uuid = r.uuid ∧
        LastNonNullWins e.publisher_name r.publisher_name (mergeRORow e r).publisher_name ∧
        LastNonNullWins e.name r.name (mergeRORow e r).name ∧
        LastNonNullWins e.abstract r.abstract (mergeRORow e r).abstract ∧
        LastNonNullWins e.num_citations r.num_citations (mergeRORow e r).num_citations ∧
        LastNonNullWins e.num_authors r.num_authors (mergeRORow e r).num_authors ∧
        LastNonNullWins e.publication_year r.publication_year (mergeRORow e r).publication_year ∧
        LastNonNullWins e.link_to_paper r.link_to_paper (mergeRORow e r).link_to_paper ∧
        LastNonNullWins e.journal_name r.journal_name (mergeRORow e r).journal_name) ∧
    (∀ (t : List GrantRow) (r e : GrantRow), e ∈ t → e.uuid = r.uuid →
        mergeGrantRow e r ∈ upsertGrantRow t r ∧
        (∀ x ∈ upsertGrantRow t r, x.uuid ≠ r.uuid → x ∈ t) ∧
        (upsertGrantRow t r).length = t.length ∧
        (mergeGrantRow e r).uuid = r.uuid ∧
        LastNonNullWins e.grant_name r.grant_name (mergeGrantRow e r).grant_name ∧
        LastNonNullWins e.start_date r.start_date (mergeGrantRow e r).start_date ∧
        LastNonNullWins e.end_date r.end_date (mergeGrantRow e r).end_date ∧
        LastNonNullWins e.total_funding r.total_funding (mergeGrantRow e r).total_funding ∧
        LastNonNullWins e.top_funding_source_name r.top_funding_source_name
          (mergeGrantRow e r).top_funding_source_name ∧
        LastNonNullWins e.school r.school (mergeGrantRow e r).school) := by
  refine ⟨⟨mergeRORow roFirst roSecond, by decide, by decide, by decide⟩, ?_, ?_⟩
  · intro t r e he hu
    have hany : t.any (fun x => decide (x.uuid = r.uuid)) = true :=
      List.any_eq_true.mpr ⟨e, he, by simp [hu]⟩
    refine ⟨?_, ?_, ?_, ?_, ?_, ?_, ?_, ?_, ?_, ?_, ?_, ?_⟩
    · simp only [upsertRORow, if_pos hany]
      exact List.mem_map.mpr ⟨e, he, by rw [if_pos hu]⟩
    · intro x hx hxu
      simp only [upsertRORow, if_pos hany] at hx
      rcases List.mem_map.mp hx with ⟨y, hy, rfl⟩
      by_cases hyu : y.uuid = r.uuid
      · rw [if_pos hyu] at hxu
        exact absurd hyu (by simpa [mergeRORow] using hxu)
      · rwa [if_neg hyu]
    · simp only [upsertRORow, if_pos hany, List.length_map]
    · exact hu ▸ rfl
    all_goals exact lastNonNullWins_orElse ..
  · intro t r e he hu
    have hany : t.any (fun x => decide (x.uuid = r.uuid)) = true :=
      List.any_eq_true.mpr ⟨e, he, by simp [hu]⟩
    refine ⟨?_, ?_, ?_, ?_, ?_, ?_, ?_, ?_, ?_, ?_⟩
    · simp only [upsertGrantRow, if_pos hany]
      exact List.mem_map.mpr ⟨e, he, by rw [if_pos hu]⟩
    · intro x hx hxu
      simp only [upsertGrantRow, if_pos hany] at hx
      rcases List.mem_map.mp hx with ⟨y, hy, rfl⟩
      by_cases hyu : y.uuid = r.uuid
      · rw [if_pos hyu] at hxu
        exact absurd hyu (by simpa [mergeGrantRow] using hxu)
      · rwa [if_neg hyu]
    · simp only [upsertGrantRow, if_pos hany, List.length_map]
    · exact hu ▸ rfl
    all_goals exact lastNonNullWins_orElse ..

theorem C6_merge_policy_witness :
    (roFirst ∈ [roFirst] ∧ roFirst.uuid = roSecond.uuid) ∧
      mergeRORow roFirst roSecond ∈ upsertRORow [roFirst] roSecond :=
  ⟨⟨by decide, by decide⟩,
    (C6_merge_policy.2.1 [roFirst] roSecond roFirst (by decide) (by decide)).1⟩

/-! ## C9: `_ensure_member` always returns the id it asserted -/

theorem ensureMember_ok_returns (t : List MemberRow) (name : String)
    (memberUuid : Option String)
    (email education bio phone photo_url profile_url title position
      main_research_area : Option String) (r : String) (t' : List MemberRow)
    (h : ensureMember t name memberUuid email education bio phone photo_url
        profile_url title position main_research_area = .ok (r, t')) :
    r = assertedMemberId name memberUuid := by
  unfold ensureMember at h
  rcases hins : insertMemberRow t
      { uuid := assertedMemberId name memberUuid, name := name, email := email,
        education := education, bio := bio, phone := phone,
        photo_url := photo_url, profile_url := profile_url,
        position := position, first_title := title,
        main_research_area := main_research_area } with _ | t2 <;>
    rw [hins] at h
  · repeat' split at h
    all_goals
      first
        | exact Except.noConfusion h
        | (simp only [Except.ok.injEq, Prod.mk.injEq] at h; exact h.1.symm)
  · simp only [Except.ok.injEq, Prod.mk.injEq] at h
    exact h.1.symm

/-- C9: whenever `_ensure_member` returns normally it returns exactly the
id it asserted — the supplied canonical id when a truthy one is given,
else the deterministic uuid derived from the casefolded name — never a
value read from a pre-existing row; hence the result is independent of the
prior contents of the member table. -/
theorem C9_ensure_member_asserted_id :
    (∀ (t : List MemberRow) (name : String) (memberUuid : Option String)
        (email education bio phone photo_url profile_url title position
          main_research_area : Option String) (r : String) (t' : List MemberRow),
        ensureMember t name memberUuid email education bio phone photo_url
            profile_url title position main_research_area = .ok (r, t') →
        r = assertedMemberId name memberUuid) ∧
    (∀ (t₁ t₂ : List MemberRow) (name : String) (memberUuid : Option String)
        (email education bio phone photo_url profile_url title position
          main_research_area : Option String) (r₁ r₂ : String)
        (t₁' t₂' : List MemberRow),
        ensureMember t₁ name memberUuid email education bio phone photo_url
            profile_url title position main_research_area = .ok (r₁, t₁') →
        ensureMember t₂ name memberUuid email education bio phone photo_url
            profile_url title position main_research_area = .ok (r₂, t₂') →
        r₁ = r₂) := by
  refine ⟨fun t name mu e ed b ph po pr ti pos mra r t' h =>
    ensureMember_ok_returns t name mu e ed b ph po pr ti pos mra r t' h, ?_⟩
  intro t₁ t₂ name mu e ed b ph po pr ti pos mra r₁ r₂ t₁' t₂' h₁ h₂
  rw [ensureMember_ok_returns t₁ name mu e ed b ph po pr ti pos mra r₁ t₁' h₁,
    ensureMember_ok_returns t₂ name mu e ed b ph po pr ti pos mra r₂ t₂' h₂]

theorem C9_ensure_member_asserted_id_witness :
    ensureMember [] "Jane A. Smith" none none none none none none none none
        none none =
      .ok (detMemberUuid "Jane A. Smith",
        [{ uuid := detMemberUuid "Jane A. Smith", name := "Jane A. Smith" }]) ∧
    detMemberUuid "Jane A. Smith" = assertedMemberId "Jane A. Smith" none :=
  ⟨by rfl,
    C9_ensure_member_asserted_id.1 [] "Jane A. Smith" none none none none none
      none none none none none (detMemberUuid "Jane A. Smith")
      [{ uuid := detMemberUuid "Jane A. Smith", name := "Jane A. Smith" }] (by rfl)⟩

/-! ## C1: the award ingest reads every funder amount from the first entry -/

/-- The spec's C1 input: an award whose funders list is
`[("A", 100.0), ("B", 250.0)]`. -/
def awardAB : AwardItem :=
  { uuid := some "g1", title := some "Grant G", school := some "School S",
    fundings := [{ funderName := some "A", awardedAmount := some 100 },
                 { funderName := some "B", awardedAmount := some 250 }] }

/-- C1 (evaluation at the failing input): because the loop reads
`fund_obj[0]["awardedAmount"]` for every funder, the award with funders
`[("A", 100.0), ("B", 250.0)]` is stored with `top_funder_name = "A"` and
`total_funding = 100.0`, and the FundingSource rows are `("A", 100.0)` and
`("B", 100.0)` — `("B", 250.0)` is never stored, contradicting the claimed
top-funder selection. -/
theorem C1_award_top_funder_bug_eval :
    (processAwardItem {} awardAB).grants =
      [{ uuid := "g1", grant_name := some "Grant G", start_date := none,
         end_date := none, total_funding := some 100,
         top_funding_source_name := some "A", school := some "School S" }] ∧
    (processAwardItem {} awardAB).fundingSources =
      [{ grant_uuid := "g1", funding_source_name := some "A", amount := 100 },
       { grant_uuid := "g1", funding_source_name := some "B", amount := 100 }] := by
  exact ⟨rfl, rfl⟩

/-! ## C2: both conflict branches of `_ensure_member` are broken -/

/-- C2 (evaluation at the failing inputs).  Name-conflict branch: asserting
id `"u-new"` for the existing `("u-old", "Jane")` row raises
`ProgrammingError` (7 placeholders, 6 parameters) instead of re-keying and
merging.  Uuid-conflict branch: asserting id `"u-1"` under the new name
`"New"` against the existing `("u-1", "Old")` row returns the asserted id
but leaves the row's name `"Old"` — the swapped `member_uuid`/`profile_url`
parameters make the UPDATE run against `WHERE uuid = NULL`, updating
nothing — contradicting the claimed rename-and-merge. -/
theorem C2_ensure_member_conflict_bug_eval :
    ensureMember [{ uuid := "u-old", name := "Jane" }] "Jane" (some "u-new")
        none none none none none none none none none =
      .error .programmingError ∧
    ensureMember [{ uuid := "u-1", name := "Old" }] "New" (some "u-1")
        none none none none none none none none none =
      .ok ("u-1", [{ uuid := "u-1", name := "Old" }]) := by
  exact ⟨rfl, rfl⟩

/-! ## C3: keyword tags bypass the cleanup/discard rule -/

/-- A research output carrying the 2-character free keyword `"AI"`. -/
def aiGroups : List KwGroup :=
  [{ typeName := pyStr "Keywords",
     containers := [{ freeKeywords := [{ freeKeywords := [pyStr "AI"] }],
                      structuredTexts := [] }] }]

/-- C3 counterexample: the free keyword `"AI"` is stored as an OutputTag
phrase even though the cleanup/discard rule rejects it (shorter than 3
characters): the tag pipeline never calls `clean_expertise`. -/
theorem C3_output_tag_bypasses_cleanup :
    ("ro1", pyStr "Keywords", pyStr "AI") ∈ extractTags "ro1" aiGroups ∧
    cleanExpertise (pyStr "AI") = none := by
  exact ⟨by decide, by decide⟩

theorem addPhrases_spec (φ : PyStr) :
    ∀ (l seen acc : List PyStr), φ ∈ (addPhrases seen acc l).2 →
      φ ∈ acc ∨ ∃ raw c, cleanExpertise raw = some c ∧ φ = titlecaseExpertise c := by
  intro l
  induction l with
  | nil => intro seen acc h; exact Or.inl h
  | cons p ps ih =>
    intro seen acc h
    simp only [addPhrases] at h
    rcases hcl : cleanExpertise p with _ | c
    · rw [hcl] at h
      exact ih seen acc h
    · rw [hcl] at h
      dsimp only at h
      by_cases hseen : pyLower (titlecaseExpertise c) ∈ seen
      · rw [if_pos hseen] at h
        exact ih seen acc h
      · rw [if_neg hseen] at h
        rcases ih _ _ h with hmem | hex
        · rcases List.mem_append.mp hmem with hmem | hmem
          · exact Or.inl hmem
          · exact Or.inr ⟨p, c, hcl, List.mem_singleton.mp hmem⟩
        · exact Or.inr hex

/-- C3 as amended: person expertise phrases all pass the cleanup/discard
rule — each stored phrase is the title-cased image of a `clean_expertise`
survivor — but research-output keyword tags do not: each stored tag phrase
is only the title-cased image of a whitespace-normalised keyword that is
nonempty, with no length / URL / word-character discard applied. -/
theorem C3_taxonomy_cleanup_amended :
    (∀ (parts structs : List PyStr) (φ : PyStr), φ ∈ personExpertise parts structs →
        ∃ raw c, cleanExpertise raw = some c ∧ φ = titlecaseExpertise c) ∧
    (∀ (ro : String) (groups : List KwGroup) (tag : String × PyStr × PyStr),
        tag ∈ extractTags ro groups →
        ∃ raw, pyNorm raw ≠ [] ∧ tag.2.2 = titlecaseExpertise (pyNorm raw)) := by
  constructor
  · intro parts structs φ h
    unfold personExpertise at h
    rcases addPhrases_spec φ structs _ _ h with hmem | hex
    · rcases addPhrases_spec φ parts [] [] hmem with hmem' | hex'
      · simp at hmem'
      · exact hex'
    · exact hex
  · intro ro groups tag htag
    unfold extractTags at htag
    rcases List.mem_flatten.mp htag with ⟨l, hl, htl⟩
    rcases List.mem_map.mp hl with ⟨g, hg, rfl⟩
    rcases List.mem_map.mp htl with ⟨φ, hφ, rfl⟩
    rcases List.mem_flatten.mp hφ with ⟨tl, htl', hφ'⟩
    rcases List.mem_map.mp htl' with ⟨k, hk, rfl⟩
    unfold tagsOfContainer at hφ'
    split at hφ'
    all_goals
      rcases List.mem_filterMap.mp hφ' with ⟨raw, _, hraw⟩
      by_cases hne : pyNorm raw = []
      · rw [if_pos hne] at hraw
        exact absurd hraw (by simp)
      · rw [if_neg hne] at hraw
        simp only [Option.some.injEq] at hraw
        exact ⟨raw, hne, hraw.symm⟩

theorem C3_taxonomy_cleanup_amended_witness :
    pyStr "Marine Biology" ∈ personExpertise [pyStr "marine biology"] [] ∧
      (∃ raw c, cleanExpertise raw = some c ∧
        pyStr "Marine Biology" = titlecaseExpertise c) :=
  ⟨by decide,
    C3_taxonomy_cleanup_amended.1 [pyStr "marine biology"] [] (pyStr "Marine Biology")
      (by decide)⟩

/-! ## C7: placeholder backfill -/

/-- Two unknown collaborator ids sharing their first 8 characters. -/
def collabsPrefixClash : List CollabRow :=
  [{ ro := "o1", researcher := "aaaaaaaa-1111", role := "Author" },
   { ro := "o2", researcher := "aaaaaaaa-2222", role := "Author" }]

/-- C7 counterexample: `"aaaaaaaa-2222"` has no member row, yet after the
backfill it still has none — its placeholder name `"External Researcher
aaaaaaaa"` is already taken by the placeholder of `"aaaaaaaa-1111"`, so its
insert hits the unique-name constraint and is skipped, leaving a
Collaboration foreign key unresolved. -/
theorem C7_backfill_name_collision :
    "aaaaaaaa-2222" ∈ missingUuids [] collabsPrefixClash ∧
    ∀ m ∈ addExternalResearchers [] collabsPrefixClash,
      m.uuid ≠ "aaaaaaaa-2222" := by
  exact ⟨by decide, by decide⟩

theorem foldPlaceholders (l : List String) :
    ∀ (acc : List MemberRow), l.Nodup →
      (∀ u ∈ l, ∀ m ∈ acc, m.uuid ≠ u ∧ m.name ≠ placeholderName u) →
      (∀ u ∈ l, ∀ v ∈ l, u ≠ v → placeholderName u ≠ placeholderName v) →
      l.foldl (fun acc u =>
        if acc.any (fun m => decide (m.uuid = u ∨ m.name = placeholderName u)) then
          acc
        else acc ++ [placeholderRow u]) acc = acc ++ l.map placeholderRow := by
  induction l with
  | nil => intro acc _ _ _; simp
  | cons u l' ih =>
    intro acc hnd hfresh hpw
    have hu : ∀ m ∈ acc, ¬ (m.uuid = u ∨ m.name = placeholderName u) := by
      intro m hm
      have := hfresh u (List.mem_cons_self ..) m hm
      tauto
    have hany : (acc.any fun m => decide (m.uuid = u ∨ m.name = placeholderName u)) = false := by
      rw [List.any_eq_false]
      intro m hm
      simpa using hu m hm
    have hnotmem : u ∉ l' := (List.nodup_cons.mp hnd).1
    rw [List.foldl_cons, hany]
    simp only [Bool.false_eq_true, if_neg (by simp : ¬ False)]
    rw [ih (acc ++ [placeholderRow u]) (List.nodup_cons.mp hnd).2 ?_ ?_]
    · simp [List.append_assoc]
    · intro v hv m hm
      rcases List.mem_append.mp hm with hm | hm
      · exact hfresh v (List.mem_cons_of_mem _ hv) m hm
      · rw [List.mem_singleton.mp hm]
        constructor
        · exact fun he => hnotmem (by rw [show u = v from he]; exact hv)
        · exact hpw u (List.mem_cons_self ..) v (List.mem_cons_of_mem _ hv)
            (fun he => hnotmem (by rw [he]; exact hv))
    · intro a ha b hb hab
      exact hpw a (List.mem_cons_of_mem _ ha) b (List.mem_cons_of_mem _ hb) hab

theorem missingUuids_nodup (ms : List MemberRow) (cs : List CollabRow) :
    (missingUuids ms cs).Nodup :=
  (List.nodup_dedup _).filter _

theorem missingUuids_not_in (ms : List MemberRow) (cs : List CollabRow)
    (u : String) (hu : u ∈ missingUuids ms cs) : ∀ m ∈ ms, m.uuid ≠ u := by
  intro m hm
  have := (List.mem_filter.mp hu).2
  simp only [Bool.not_eq_true', List.any_eq_false, decide_eq_true_eq] at this
  exact this m hm

theorem nodup_filter_eq_singleton (l : List String) (u : String)
    (hnd : l.Nodup) (hu : u ∈ l) :
    l.filter (fun v => decide (v = u)) = [u] := by
  induction l with
  | nil => simp at hu
  | cons a l' ih =>
    rcases List.nodup_cons.mp hnd with ⟨hna, hnd'⟩
    by_cases hau : a = u
    · subst hau
      have : l'.filter (fun v => decide (v = a)) = [] := by
        rw [List.filter_eq_nil_iff]
        intro v hv
        simp only [decide_eq_true_eq]
        exact fun he => hna (he ▸ hv)
      simp [List.filter_cons, this]
    · have hu' : u ∈ l' := by
        rcases List.mem_cons.mp hu with h | h
        · exact absurd h.symm hau
        · exact h
      simp [List.filter_cons, hau, ih hnd' hu']

theorem mem_placeholderUuids (ms : List MemberRow) (u : String) :
    u ∈ (ms.filter isPlaceholder).map MemberRow.uuid ↔
      ∃ q ∈ ms, isPlaceholder q = true ∧ q.uuid = u := by
  constructor
  · intro h
    rcases List.mem_map.mp h with ⟨q, hq, hqu⟩
    rcases List.mem_filter.mp hq with ⟨hq1, hq2⟩
    exact ⟨q, hq1, hq2, hqu⟩
  · rintro ⟨q, hq1, hq2, hqu⟩
    exact List.mem_map.mpr ⟨q, List.mem_filter.mpr ⟨hq1, hq2⟩, hqu⟩

theorem renameStep_uuids (mapping : List (String × String)) (acc : List MemberRow)
    (u : String) :
    (renameStep mapping acc u).map MemberRow.uuid = acc.map MemberRow.uuid := by
  unfold renameStep
  rcases mapping.lookup u with _ | n
  · rfl
  · dsimp only
    split
    · rfl
    · rw [List.map_map]
      apply List.map_congr_left
      intro m _
      by_cases hmu : m.uuid = u
      · simp [Function.comp, hmu]
      · simp [Function.comp, hmu]

theorem renameFold_uuids (mapping : List (String × String)) :
    ∀ (l : List String) (acc : List MemberRow),
      (l.foldl (renameStep mapping) acc).map MemberRow.uuid =
        acc.map MemberRow.uuid := by
  intro l
  induction l with
  | nil => intro acc; rfl
  | cons u l' ih =>
    intro acc
    rw [List.foldl_cons, ih, renameStep_uuids]

theorem renameFold_all (mapping : List (String × String)) :
    ∀ (l : List String) (acc : List MemberRow), l.Nodup →
      (∀ u ∈ l, ∀ v ∈ l, u ≠ v → (mapping.lookup u).isSome = true →
        mapping.lookup u ≠ mapping.lookup v) →
      (∀ u ∈ l, ∀ m ∈ acc, m.uuid ≠ u → mapping.lookup u ≠ some m.name) →
      l.foldl (renameStep mapping) acc =
        acc.map fun m =>
          if m.uuid ∈ l then { m with name := (mapping.lookup m.uuid).getD m.name }
          else m := by
  intro l
  induction l with
  | nil =>
    intro acc _ _ _
    simp
  | cons u l' ih =>
    intro acc hnd hG1 hG2
    have hnd' := (List.nodup_cons.mp hnd).2
    have hul' : u ∉ l' := (List.nodup_cons.mp hnd).1
    have hG1' : ∀ a ∈ l', ∀ b ∈ l', a ≠ b → (mapping.lookup a).isSome = true →
        mapping.lookup a ≠ mapping.lookup b :=
      fun a ha b hb => hG1 a (List.mem_cons_of_mem _ ha) b (List.mem_cons_of_mem _ hb)
    rw [List.foldl_cons]
    rcases hlk : mapping.lookup u with _ | n
    · have hstep : renameStep mapping acc u = acc := by
        unfold renameStep
        rw [hlk]
      rw [hstep, ih acc hnd' hG1' (fun a ha => hG2 a (List.mem_cons_of_mem _ ha))]
      apply List.map_congr_left
      intro m hm
      by_cases hmu : m.uuid ∈ l'
      · rw [if_pos hmu, if_pos (List.mem_cons_of_mem _ hmu)]
      · by_cases hmu2 : m.uuid = u
        · rw [if_neg hmu, if_pos (show m.uuid ∈ u :: l' by
            rw [hmu2]; exact List.mem_cons_self ..),
            show mapping.lookup m.uuid = none by rw [hmu2]; exact hlk]
          rfl
        · rw [if_neg hmu, if_neg (show ¬ m.uuid ∈ u :: l' by
            simp [List.mem_cons, hmu, hmu2])]
    · have hany : (acc.any fun m => decide (m.name = n ∧ m.uuid ≠ u)) = false := by
        rw [List.any_eq_false]
        intro m hm
        simp only [decide_eq_true_eq]
        rintro ⟨h1, h2⟩
        exact hG2 u (List.mem_cons_self ..) m hm h2 (by rw [hlk, h1])
      have hstep : renameStep mapping acc u =
          acc.map fun m => if m.uuid = u then { m with name := n } else m := by
        unfold renameStep
        rw [hlk]
        dsimp only
        rw [if_neg (show ¬ (acc.any fun m => decide (m.name = n ∧ m.uuid ≠ u)) = true by
          rw [hany]; simp)]
      have hG2' : ∀ v ∈ l',
          ∀ m2 ∈ acc.map fun m => if m.uuid = u then { m with name := n } else m,
          m2.uuid ≠ v → mapping.lookup v ≠ some m2.name := by
        intro v hv m2 hm2 hm2v
        rcases List.mem_map.mp hm2 with ⟨m0, hm0, rfl⟩
        by_cases hm0u : m0.uuid = u
        · rw [if_pos hm0u]
          intro hvn
          have hvu : u ≠ v := fun he => hul' (he ▸ hv)
          exact hG1 u (List.mem_cons_self ..) v (List.mem_cons_of_mem _ hv) hvu
            (by rw [hlk]; rfl) (hlk.trans hvn.symm)
        · rw [if_neg hm0u]
          rw [if_neg hm0u] at hm2v
          exact hG2 v (List.mem_cons_of_mem _ hv) m0 hm0 hm2v
      rw [hstep, ih _ hnd' hG1' hG2', List.map_map]
      apply List.map_congr_left
      intro m hm
      simp only [Function.comp]
      by_cases hmu : m.uuid = u
      · rw [if_pos hmu]
        dsimp only
        rw [if_neg (show ¬ m.uuid ∈ l' from fun h => hul' (hmu ▸ h)),
          if_pos (show m.uuid ∈ u :: l' by rw [hmu]; exact List.mem_cons_self ..),
          show mapping.lookup m.uuid = some n by rw [hmu]; exact hlk]
        rfl
      · rw [if_neg hmu]
        by_cases hml : m.uuid ∈ l'
        · rw [if_pos hml, if_pos (List.mem_cons_of_mem _ hml)]
        · rw [if_neg hml, if_neg (show ¬ m.uuid ∈ u :: l' by
            simp [List.mem_cons, hmu, hml])]

theorem renameFold_keeps (mapping : List (String × String)) (pu pname nm : String)
    (hpk : mapping.lookup pu = some nm) :
    ∀ (l : List String) (acc : List MemberRow),
      (∃ m' ∈ acc, m'.name = nm ∧ m'.uuid ≠ pu ∧ m'.uuid ∉ l) →
      (∀ m ∈ acc, m.uuid = pu → m.name = pname) →
      ∀ m ∈ l.foldl (renameStep mapping) acc, m.uuid = pu → m.name = pname := by
  intro l
  induction l with
  | nil => intro acc _ hP; exact hP
  | cons u l' ih =>
    intro acc hex hP
    rw [List.foldl_cons]
    rcases hlku : mapping.lookup u with _ | n₂
    · have hstep : renameStep mapping acc u = acc := by
        unfold renameStep
        rw [hlku]
      rw [hstep]
      rcases hex with ⟨m', hm', h1, h2, h3⟩
      exact ih acc ⟨m', hm', h1, h2, fun hmem => h3 (List.mem_cons_of_mem _ hmem)⟩ hP
    · by_cases hany : (acc.any fun m => decide (m.name = n₂ ∧ m.uuid ≠ u)) = true
      · have hstep : renameStep mapping acc u = acc := by
          unfold renameStep
          rw [hlku]
          dsimp only
          rw [if_pos hany]
        rw [hstep]
        rcases hex with ⟨m', hm', h1, h2, h3⟩
        exact ih acc ⟨m', hm', h1, h2, fun hmem => h3 (List.mem_cons_of_mem _ hmem)⟩ hP
      · have hupu : u ≠ pu := by
          intro he
          rcases hex with ⟨m', hm', h1, h2, h3⟩
          have hn2 : n₂ = nm := by
            rw [he, hpk] at hlku
            exact (Option.some.inj hlku).symm
          refine hany (List.any_eq_true.mpr ⟨m', hm', ?_⟩)
          simp only [decide_eq_true_eq]
          exact ⟨h1.trans hn2.symm, fun hh => h2 (hh.trans he)⟩
        have hstep : renameStep mapping acc u =
            acc.map fun m => if m.uuid = u then { m with name := n₂ } else m := by
          unfold renameStep
          rw [hlku]
          dsimp only
          rw [if_neg hany]
        rw [hstep]
        rcases hex with ⟨m', hm', h1, h2, h3⟩
        have hm'u : m'.uuid ≠ u := fun he => h3 (by rw [he]; exact List.mem_cons_self ..)
        refine ih _ ⟨m', List.mem_map.mpr ⟨m', hm', if_neg hm'u⟩, h1, h2,
          fun hmem => h3 (List.mem_cons_of_mem _ hmem)⟩ ?_
        intro m hm hmu
        rcases List.mem_map.mp hm with ⟨m0, hm0, rfl⟩
        by_cases hm0u : m0.uuid = u
        · rw [if_pos hm0u] at hmu ⊢
          exact absurd (hm0u.symm.trans hmu) hupu
        · rw [if_neg hm0u] at hmu ⊢
          exact hP m0 hm0 hmu

/-- C7 as amended: provided the missing ids' placeholder names collide
neither with each other (distinct first-8-character prefixes) nor with an
existing member name, the backfill adds exactly one placeholder per
missing collaborator id and every Collaboration foreign key then resolves
(an id whose placeholder name would collide at insert time is instead
skipped and stays unresolved, per the counterexample).  The rename pass
walks every placeholder row: when member uuids are pairwise distinct, the
recovered names of distinct placeholders differ, and no recovered name is
already held by a different row, every placeholder with a mapping entry is
renamed to its recovered name and all other rows are untouched; and a
placeholder whose recovered name is already held by a non-placeholder row
keeps its placeholder name. -/
theorem C7_backfill_amended :
    (∀ (ms : List MemberRow) (cs : List CollabRow),
        (∀ u ∈ missingUuids ms cs, ∀ v ∈ missingUuids ms cs, u ≠ v →
          placeholderName u ≠ placeholderName v) →
        (∀ u ∈ missingUuids ms cs, ∀ m ∈ ms, m.name ≠ placeholderName u) →
        addExternalResearchers ms cs = ms ++ (missingUuids ms cs).map placeholderRow ∧
        (∀ c ∈ cs, ∃ m ∈ addExternalResearchers ms cs, m.uuid = c.researcher) ∧
        (∀ u ∈ missingUuids ms cs,
          (addExternalResearchers ms cs).filter (fun m => decide (m.uuid = u)) =
            [placeholderRow u])) ∧
    (∀ (ms : List MemberRow) (mapping : List (String × String)),
        (ms.map MemberRow.uuid).Nodup →
        (∀ m ∈ ms, ∀ m' ∈ ms, isPlaceholder m = true → isPlaceholder m' = true →
          m.uuid ≠ m'.uuid → (mapping.lookup m.uuid).isSome = true →
          mapping.lookup m.uuid ≠ mapping.lookup m'.uuid) →
        (∀ m ∈ ms, isPlaceholder m = true → ∀ m' ∈ ms, m'.uuid ≠ m.uuid →
          mapping.lookup m.uuid ≠ some m'.name) →
        updateExternalNames ms mapping =
          ms.map fun m =>
            if isPlaceholder m then
              { m with name := (mapping.lookup m.uuid).getD m.name }
            else m) ∧
    (∀ (ms : List MemberRow) (mapping : List (String × String)),
        (ms.map MemberRow.uuid).Nodup →
        ∀ p ∈ ms, isPlaceholder p = true →
        ∀ nm, mapping.lookup p.uuid = some nm →
        (∃ m' ∈ ms, isPlaceholder m' = false ∧ m'.name = nm) →
        ∃ m ∈ updateExternalNames ms mapping, m.uuid = p.uuid ∧ m.name = p.name) := by
  constructor
  · intro ms cs hpw hnames
    have heq : addExternalResearchers ms cs =
        ms ++ (missingUuids ms cs).map placeholderRow := by
      unfold addExternalResearchers
      exact foldPlaceholders _ ms (missingUuids_nodup ms cs)
        (fun u hu m hm => ⟨missingUuids_not_in ms cs u hu m hm, hnames u hu m hm⟩)
        hpw
    refine ⟨heq, ?_, ?_⟩
    · intro c hc
      by_cases hmem : ∃ m ∈ ms, m.uuid = c.researcher
      · rcases hmem with ⟨m, hm, hmu⟩
        exact ⟨m, heq ▸ List.mem_append_left _ hm, hmu⟩
      · have hmiss : c.researcher ∈ missingUuids ms cs := by
          rw [missingUuids, List.mem_filter]
          refine ⟨List.mem_dedup.mpr (List.mem_map.mpr ⟨c, hc, rfl⟩), ?_⟩
          simp only [Bool.not_eq_true', List.any_eq_false, decide_eq_true_eq]
          intro m hm hmu
          exact hmem ⟨m, hm, hmu⟩
        exact ⟨placeholderRow c.researcher,
          heq ▸ List.mem_append_right _ (List.mem_map.mpr ⟨c.researcher, hmiss, rfl⟩),
          rfl⟩
    · intro u hu
      rw [heq, List.filter_append]
      have h1 : ms.filter (fun m => decide (m.uuid = u)) = [] := by
        rw [List.filter_eq_nil_iff]
        intro m hm
        simpa using missingUuids_not_in ms cs u hu m hm
      have h2 : ((missingUuids ms cs).map placeholderRow).filter
          (fun m => decide (m.uuid = u)) = [placeholderRow u] := by
        rw [List.filter_map]
        have : ((missingUuids ms cs).filter
            ((fun m => decide (m.uuid = u)) ∘ placeholderRow)) = [u] :=
          nodup_filter_eq_singleton _ u (missingUuids_nodup ms cs) hu
        rw [this]
        rfl
      rw [h1, h2, List.nil_append]
  constructor
  · intro ms mapping hnd H1 H2
    have hinj : ∀ a ∈ ms, ∀ b ∈ ms, a.uuid = b.uuid → a = b :=
      fun a ha b hb he => List.inj_on_of_nodup_map hnd ha hb he
    have hPnd : ((ms.filter isPlaceholder).map MemberRow.uuid).Nodup :=
      List.Nodup.sublist (List.Sublist.map _ (List.filter_sublist ms)) hnd
    have hG1 : ∀ u ∈ (ms.filter isPlaceholder).map MemberRow.uuid,
        ∀ v ∈ (ms.filter isPlaceholder).map MemberRow.uuid, u ≠ v →
        (mapping.lookup u).isSome = true →
        mapping.lookup u ≠ mapping.lookup v := by
      intro u hu v hv huv hsome
      rcases (mem_placeholderUuids ms u).mp hu with ⟨q, hq, hqpl, hqu⟩
      rcases (mem_placeholderUuids ms v).mp hv with ⟨r, hr, hrpl, hru⟩
      subst hqu
      subst hru
      exact H1 q hq r hr hqpl hrpl huv hsome
    have hG2 : ∀ u ∈ (ms.filter isPlaceholder).map MemberRow.uuid,
        ∀ m ∈ ms, m.uuid ≠ u → mapping.lookup u ≠ some m.name := by
      intro u hu m hm hmu
      rcases (mem_placeholderUuids ms u).mp hu with ⟨q, hq, hqpl, hqu⟩
      subst hqu
      exact H2 q hq hqpl m hm hmu
    unfold updateExternalNames
    rw [renameFold_all mapping ((ms.filter isPlaceholder).map MemberRow.uuid) ms
      hPnd hG1 hG2]
    apply List.map_congr_left
    intro m hm
    by_cases hpl : isPlaceholder m = true
    · rw [if_pos ((mem_placeholderUuids ms m.uuid).mpr ⟨m, hm, hpl, rfl⟩), if_pos hpl]
    · have hnm : m.uuid ∉ (ms.filter isPlaceholder).map MemberRow.uuid := by
        intro hmem
        rcases (mem_placeholderUuids ms m.uuid).mp hmem with ⟨q, hq, hqpl, hqu⟩
        exact hpl (by rw [← hinj q hq m hm hqu]; exact hqpl)
      rw [if_neg hnm, if_neg hpl]
  · intro ms mapping hnd p hp hppl nm hlkp hex
    have hinj : ∀ a ∈ ms, ∀ b ∈ ms, a.uuid = b.uuid → a = b :=
      fun a ha b hb he => List.inj_on_of_nodup_map hnd ha hb he
    rcases hex with ⟨m', hm', hm'pl, hm'n⟩
    have hexP : ∃ m2 ∈ ms, m2.name = nm ∧ m2.uuid ≠ p.uuid ∧
        m2.uuid ∉ (ms.filter isPlaceholder).map MemberRow.uuid := by
      refine ⟨m', hm', hm'n, ?_, ?_⟩
      · intro he
        have h := hinj m' hm' p hp he
        rw [h, hppl] at hm'pl
        exact absurd hm'pl (by decide)
      · intro hmem
        rcases (mem_placeholderUuids ms m'.uuid).mp hmem with ⟨q, hq, hqpl, hqu⟩
        have h := hinj q hq m' hm' hqu
        rw [h, hm'pl] at hqpl
        exact absurd hqpl (by decide)
    have hPname : ∀ m2 ∈ ms, m2.uuid = p.uuid → m2.name = p.name := by
      intro m2 hm2 hm2u
      rw [hinj m2 hm2 p hp hm2u]
    have hkeep : ∀ m ∈ updateExternalNames ms mapping, m.uuid = p.uuid →
        m.name = p.name :=
      renameFold_keeps mapping p.uuid p.name nm hlkp
        ((ms.filter isPlaceholder).map MemberRow.uuid) ms hexP hPname
    have hmemu : p.uuid ∈ (updateExternalNames ms mapping).map MemberRow.uuid := by
      rw [show (updateExternalNames ms mapping).map MemberRow.uuid =
            ms.map MemberRow.uuid from renameFold_uuids mapping _ ms]
      exact List.mem_map.mpr ⟨p, hp, rfl⟩
    rcases List.mem_map.mp hmemu with ⟨m, hm, hmu⟩
    exact ⟨m, hm, hmu, hkeep m hm hmu⟩

/-- One unknown collaborator, no collisions. -/
def collabsClean : List CollabRow :=
  [{ ro := "o1", researcher := "11111111-aaaa", role := "Author" }]

/-- Rename-pass witness data: two placeholders and one real member. -/
def msW : List MemberRow :=
  [placeholderRow "11111111-aaaa", placeholderRow "22222222-bbbb",
   { uuid := "u-jane", name := "Jane", position := some "Lecturer" }]

/-- Author-name mapping recovering both placeholders' names. -/
def mapW : List (String × String) :=
  [("11111111-aaaa", "Alice Smith"), ("22222222-bbbb", "Bob Jones")]

/-- Collision witness data: a placeholder whose recovered name is already a
real member's name. -/
def msW2 : List MemberRow :=
  [placeholderRow "33333333-cccc",
   { uuid := "u-alice", name := "Alice Smith", position := some "Professor" }]

/-- Mapping recovering the colliding name for the placeholder of `msW2`. -/
def mapW2 : List (String × String) :=
  [("33333333-cccc", "Alice Smith")]

theorem C7_backfill_amended_witness :
    ((∀ u ∈ missingUuids [] collabsClean, ∀ v ∈ missingUuids [] collabsClean,
        u ≠ v → placeholderName u ≠ placeholderName v) ∧
      (∀ u ∈ missingUuids [] collabsClean, ∀ m ∈ ([] : List MemberRow),
        m.name ≠ placeholderName u) ∧
      addExternalResearchers [] collabsClean =
        [] ++ (missingUuids [] collabsClean).map placeholderRow) ∧
    ((msW.map MemberRow.uuid).Nodup ∧
      updateExternalNames msW mapW =
        msW.map fun m =>
          if isPlaceholder m then
            { m with name := (mapW.lookup m.uuid).getD m.name }
          else m) ∧
    ((msW2.map MemberRow.uuid).Nodup ∧
      ∃ m ∈ updateExternalNames msW2 mapW2,
        m.uuid = (placeholderRow "33333333-cccc").uuid ∧
        m.name = (placeholderRow "33333333-cccc").name) :=
  ⟨⟨by decide, by decide,
      (C7_backfill_amended.1 [] collabsClean (by decide) (by decide)).1⟩,
    ⟨by decide,
      C7_backfill_amended.2.1 msW mapW (by decide) (by decide) (by decide)⟩,
    ⟨by decide,
      C7_backfill_amended.2.2 msW2 mapW2 (by decide) (placeholderRow "33333333-cccc")
        (by decide) (by decide) "Alice Smith" (by decide) (by decide)⟩⟩

/-! ## C8: the aggregation pass -/

/-- Definition following the spec's words for the claimed `grant_count`:
"the number of distinct grants reachable from `p`'s outputs via
OutputGrantLink ... computed purely from the Collaboration and
OutputGrantLink tables" — no join against the Grant table. -/
def specGrantCountLinksOnly (cs : List CollabRow) (links : List LinkRow)
    (p : String) : Nat :=
  ((links.filter fun l =>
      cs.any fun c => decide (c.researcher = p ∧ c.ro = l.ro)).map
    LinkRow.grant).dedup.length

/-- C8 counterexample: with one collaboration `(ro1, p1)` and a link
`(ro1, gX)` whose grant id has no Grant row, the aggregation stores
`grant_count = 0` for `p1` (the SQL joins `OIResearchGrants`), while the
claimed link-only count is `1`. -/
theorem C8_grant_count_dangling_link :
    fillMeta [{ uuid := "p1", name := "P One" }]
        [{ ro := "ro1", researcher := "p1", role := "Author" }]
        [{ ro := "ro1", grant := "gX" }] [] =
      [{ researcher := "p1", num_research_outputs := 1, num_grants := 0,
         num_collaborations := 0 }] ∧
    specGrantCountLinksOnly [{ ro := "ro1", researcher := "p1", role := "Author" }]
        [{ ro := "ro1", grant := "gX" }] "p1" = 1 := by
  exact ⟨by decide, by decide⟩

theorem dedupLength_eq_of_toFinset {α : Type} [DecidableEq α] (l₁ l₂ : List α)
    (h : l₁.toFinset = l₂.toFinset) : l₁.dedup.length = l₂.dedup.length := by
  rw [← List.card_toFinset, ← List.card_toFinset, h]

theorem numROs_card (cs : List CollabRow) (p : String) :
    numROs cs p =
      ((cs.filter fun c => decide (c.researcher = p)).map CollabRow.ro).toFinset.card := by
  rw [List.card_toFinset]
  refine dedupLength_eq_of_toFinset _ _ ?_
  ext x
  simp only [List.mem_toFinset, List.mem_map, List.mem_filter, authorRo,
    List.mem_dedup, decide_eq_true_eq]
  constructor
  · rintro ⟨a, ⟨⟨c, hc, rfl⟩, hap⟩, hax⟩
    exact ⟨c, ⟨hc, hap⟩, hax⟩
  · rintro ⟨c, ⟨hc, hcp⟩, hcx⟩
    exact ⟨(c.researcher, c.ro), ⟨⟨c, hc, rfl⟩, hcp⟩, hcx⟩

theorem mem_numGrants_list (cs : List CollabRow) (links : List LinkRow)
    (gUuids : List String) (p : String) (g : String) :
    g ∈ ((((authorRo cs).filter (fun a => decide (a.1 = p))).map (fun a =>
        (links.filter (fun l => decide (l.ro = a.2))).map LinkRow.grant)).flatten.filter
      (fun x => decide (x ∈ gUuids))) ↔
    ∃ l ∈ links, (∃ c ∈ cs, c.researcher = p ∧ c.ro = l.ro) ∧
      l.grant ∈ gUuids ∧ g = l.grant := by
  constructor
  · intro h
    rcases List.mem_filter.mp h with ⟨hgfl, hgu'⟩
    have hgu : g ∈ gUuids := by simpa using hgu'
    rcases List.mem_flatten.mp hgfl with ⟨gl, hgl, hggl⟩
    rcases List.mem_map.mp hgl with ⟨a, ha, rfl⟩
    rcases List.mem_filter.mp ha with ⟨haro, hap'⟩
    have hap : a.1 = p := by simpa using hap'
    rcases List.mem_map.mp (List.mem_dedup.mp haro) with ⟨c, hc, rfl⟩
    rcases List.mem_map.mp hggl with ⟨l, hlf, rfl⟩
    rcases List.mem_filter.mp hlf with ⟨hl, hlro'⟩
    have hlro : l.ro = c.ro := by simpa using hlro'
    exact ⟨l, hl, ⟨c, hc, hap, hlro.symm⟩, hgu, rfl⟩
  · rintro ⟨l, hl, ⟨c, hc, hcp, hcro⟩, hgu, rfl⟩
    refine List.mem_filter.mpr ⟨?_, by simpa using hgu⟩
    refine List.mem_flatten.mpr
      ⟨(links.filter (fun x => decide (x.ro = c.ro))).map LinkRow.grant, ?_, ?_⟩
    · refine List.mem_map.mpr ⟨(c.researcher, c.ro), ?_, rfl⟩
      exact List.mem_filter.mpr
        ⟨List.mem_dedup.mpr (List.mem_map.mpr ⟨c, hc, rfl⟩), by simpa using hcp⟩
    · exact List.mem_map.mpr ⟨l, List.mem_filter.mpr ⟨hl, by simpa using hcro.symm⟩, rfl⟩

theorem numGrants_card (cs : List CollabRow) (links : List LinkRow)
    (gs : List GrantRow) (p : String) :
    numGrants cs links (gs.map GrantRow.uuid) p =
      ((links.filter fun l =>
          decide ((∃ c ∈ cs, c.researcher = p ∧ c.ro = l.ro) ∧
            l.grant ∈ gs.map GrantRow.uuid)).map LinkRow.grant).toFinset.card := by
  rw [List.card_toFinset]
  refine dedupLength_eq_of_toFinset _ _ (Finset.ext fun g => ?_)
  rw [List.mem_toFinset, List.mem_toFinset, mem_numGrants_list]
  constructor
  · rintro ⟨l, hl, hex, hgu, rfl⟩
    exact List.mem_map.mpr ⟨l, List.mem_filter.mpr
      ⟨hl, by simp only [decide_eq_true_eq]; exact ⟨hex, hgu⟩⟩, rfl⟩
  · intro hg
    rcases List.mem_map.mp hg with ⟨l, hlf, rfl⟩
    rcases List.mem_filter.mp hlf with ⟨hl, hP⟩
    simp only [decide_eq_true_eq] at hP
    exact ⟨l, hl, hP.1, hP.2, rfl⟩

theorem numCollabs_card (cs : List CollabRow) (p : String) :
    numCollabs cs p =
      ((cs.filter fun c => decide (c.researcher = p ∧
          ∃ x ∈ cs, x.ro = c.ro ∧ x.researcher ≠ p)).map CollabRow.ro).toFinset.card := by
  rw [List.card_toFinset]
  refine dedupLength_eq_of_toFinset _ _ ?_
  ext r
  simp only [List.mem_toFinset, List.mem_map, List.mem_filter, authorRo,
    List.mem_dedup, Bool.and_eq_true, decide_eq_true_eq, List.any_eq_true]
  constructor
  · rintro ⟨a, ⟨⟨c, hc, rfl⟩, hap, x, hx, hxro, hxr⟩, hax⟩
    exact ⟨c, ⟨hc, hap, x, hx, hxro, hxr⟩, hax⟩
  · rintro ⟨c, ⟨hc, hcp, x, hx, hxro, hxr⟩, hcx⟩
    exact ⟨(c.researcher, c.ro), ⟨⟨c, hc, rfl⟩, hcp, x, hx, hxro, hxr⟩, hcx⟩

/-- C8 as amended: the aggregation recomputes one stats row per member
from the Collaboration, OutputGrantLink *and Grant* tables:
`output_count` is the number of distinct outputs on which the member
appears in Collaboration, `grant_count` the number of distinct grant ids
that both appear in a link from one of the member's outputs and exist in
the Grant table (a link to a grant id with no Grant row is not counted),
and `collaborator_count` the number of the member's distinct outputs with
at least one other collaborator. -/
theorem C8_aggregation_amended :
    ∀ (ms : List MemberRow) (cs : List CollabRow) (links : List LinkRow)
      (gs : List GrantRow),
      (fillMeta ms cs links gs).length = ms.length ∧
      ∀ m ∈ ms, ∃ row ∈ fillMeta ms cs links gs,
        row.researcher = m.uuid ∧
        row.num_research_outputs =
          ((cs.filter fun c => decide (c.researcher = m.uuid)).map
            CollabRow.ro).toFinset.card ∧
        row.num_grants =
          ((links.filter fun l =>
              decide ((∃ c ∈ cs, c.researcher = m.uuid ∧ c.ro = l.ro) ∧
                l.grant ∈ gs.map GrantRow.uuid)).map LinkRow.grant).toFinset.card ∧
        row.num_collaborations =
          ((cs.filter fun c => decide (c.researcher = m.uuid ∧
              ∃ x ∈ cs, x.ro = c.ro ∧ x.researcher ≠ m.uuid)).map
            CollabRow.ro).toFinset.card := by
  intro ms cs links gs
  refine ⟨by simp [fillMeta], ?_⟩
  intro m hm
  refine ⟨_, List.mem_map.mpr ⟨m, hm, rfl⟩, rfl, ?_, ?_, ?_⟩
  · exact numROs_card cs m.uuid
  · exact numGrants_card cs links gs m.uuid
  · exact numCollabs_card cs m.uuid

/-- Concrete rows for the aggregation witness. -/
def p1Row : MemberRow := { uuid := "p1", name := "P One" }

/-- Concrete collaboration row for the aggregation witness. -/
def c1Row : CollabRow := { ro := "ro1", researcher := "p1", role := "Author" }

/-- Concrete link row for the aggregation witness. -/
def l1Row : LinkRow := { ro := "ro1", grant := "gX" }

theorem C8_aggregation_amended_witness :
    p1Row ∈ [p1Row] ∧
      ∃ row ∈ fillMeta [p1Row] [c1Row] [l1Row] [],
        row.researcher = p1Row.uuid ∧
        row.num_research_outputs =
          (([c1Row].filter fun c => decide (c.researcher = p1Row.uuid)).map
            CollabRow.ro).toFinset.card ∧
        row.num_grants =
          (([l1Row].filter fun l =>
              decide ((∃ c ∈ [c1Row], c.researcher = p1Row.uuid ∧ c.ro = l.ro) ∧
                l.grant ∈ ([] : List GrantRow).map GrantRow.uuid)).map
            LinkRow.grant).toFinset.card ∧
        row.num_collaborations =
          (([c1Row].filter fun c => decide (c.researcher = p1Row.uuid ∧
              ∃ x ∈ [c1Row], x.ro = c.ro ∧ x.researcher ≠ p1Row.uuid)).map
            CollabRow.ro).toFinset.card :=
  ⟨List.mem_singleton.mpr rfl,
    (C8_aggregation_amended [p1Row] [c1Row] [l1Row] []).2 p1Row
      (List.mem_singleton.mpr rfl)⟩
